import Mathlib

/-!
Verification of the telemetry core (`src/misc.rs`): linear bucket index
computation with IEEE-754 binary32 arithmetic, the `Flatten` capability,
and the growable-buffer utilities `vec_resize` / `vec_with_size`.

The floating-point arithmetic of `LinearBuckets::get_bucket` is modelled
exactly: binary32 values are dyadic rationals `m * 2^e` with a 24-bit
significand, operations round to nearest with ties to even, and the
conversions (`u32 as f32`, `usize as f32`, `f32 as usize`) follow Rust
semantics (round to nearest even on the way in, saturating truncation
toward zero on the way out).  All definitions are executable over `Nat`
and `Int` so that concrete runs of the code evaluate by `decide`.
-/

/-- Floor of log2 of `n`, by fuel recursion (`fuel ≥ n` suffices). -/
def log2fuel : Nat → Nat → Nat
  | 0, _ => 0
  | fuel+1, n => if n ≤ 1 then 0 else log2fuel fuel (n / 2) + 1

/-- Floor of log2 of a positive natural number. -/
def log2n (n : Nat) : Nat := log2fuel n n

/-- Decides whether the positive fraction `num / den` is `< 2^c`. -/
def qlt2pow (num den : Nat) (c : ℤ) : Bool :=
  if 0 ≤ c then num < den * 2 ^ c.toNat else num * 2 ^ (-c).toNat < den

/-- Floor of log2 of the positive fraction `num / den`. -/
def ilog2N (num den : Nat) : ℤ :=
  let c : ℤ := (log2n num : ℤ) - (log2n den : ℤ)
  if qlt2pow num den c then c - 1 else c

/-- Round the nonnegative fraction `num / den` to a natural number,
nearest, ties to even. -/
def rnNat (num den : Nat) : Nat :=
  let q := num / den
  let r := num % den
  if 2 * r < den then q
  else if den < 2 * r then q + 1
  else if q % 2 = 0 then q else q + 1

/-- A binary32 value: NaN, the infinities, or a finite dyadic value
`m * 2^e` (representation not canonical). -/
inductive F32 where
  | nan : F32
  | pinf : F32
  | ninf : F32
  | fin : ℤ → ℤ → F32
deriving DecidableEq

/-- The pair `(num', den')` with `num' / den' = (num / den) * 2^(-s)`. -/
def shiftPair (num den : Nat) (s : ℤ) : Nat × Nat :=
  if 0 ≤ s then (num, den * 2 ^ s.toNat) else (num * 2 ^ (-s).toNat, den)

/-- Round the positive fraction `num / den` to binary32, nearest, ties to
even, overflowing to `+∞` beyond `2^128`. -/
def roundPosRat (num den : Nat) : F32 :=
  let e := ilog2N num den
  let s := max (-149) (e - 23)
  let p := shiftPair num den s
  let m := rnNat p.1 p.2
  if 0 ≤ s ∧ 2 ^ 128 ≤ m * 2 ^ s.toNat then F32.pinf else F32.fin (m : ℤ) s

/-- Negation of a binary32 value. -/
def F32.neg : F32 → F32
  | nan => nan
  | pinf => ninf
  | ninf => pinf
  | fin m e => fin (-m) e

/-- Round the exact dyadic rational `d * 2^e` to binary32. -/
def roundDy (d : ℤ) (e : ℤ) : F32 :=
  if d = 0 then F32.fin 0 0
  else
    let p : Nat × Nat :=
      if 0 ≤ e then (d.natAbs * 2 ^ e.toNat, 1) else (d.natAbs, 2 ^ (-e).toNat)
    if 0 < d then roundPosRat p.1 p.2 else (roundPosRat p.1 p.2).neg

/-- Conversion of an unsigned integer (`u32 as f32`, `usize as f32`):
round to nearest, ties to even. -/
def natToF32 (n : Nat) : F32 := roundDy (n : ℤ) 0

/-- binary32 subtraction: round the exact difference. -/
def fsub : F32 → F32 → F32
  | F32.fin m1 e1, F32.fin m2 e2 =>
      let e := min e1 e2
      roundDy (m1 * 2 ^ (e1 - e).toNat - m2 * 2 ^ (e2 - e).toNat) e
  | F32.nan, _ => F32.nan
  | _, F32.nan => F32.nan
  | F32.pinf, F32.pinf => F32.nan
  | F32.pinf, _ => F32.pinf
  | F32.ninf, F32.ninf => F32.nan
  | F32.ninf, _ => F32.ninf
  | F32.fin _ _, F32.pinf => F32.ninf
  | F32.fin _ _, F32.ninf => F32.pinf

/-- binary32 multiplication: round the exact product. -/
def fmul : F32 → F32 → F32
  | F32.fin m1 e1, F32.fin m2 e2 => roundDy (m1 * m2) (e1 + e2)
  | F32.nan, _ => F32.nan
  | _, F32.nan => F32.nan
  | F32.pinf, F32.pinf => F32.pinf
  | F32.pinf, F32.ninf => F32.ninf
  | F32.ninf, F32.pinf => F32.ninf
  | F32.ninf, F32.ninf => F32.pinf
  | F32.pinf, F32.fin m _ =>
      if m = 0 then F32.nan else if 0 < m then F32.pinf else F32.ninf
  | F32.ninf, F32.fin m _ =>
      if m = 0 then F32.nan else if 0 < m then F32.ninf else F32.pinf
  | F32.fin m _, F32.pinf =>
      if m = 0 then F32.nan else if 0 < m then F32.pinf else F32.ninf
  | F32.fin m _, F32.ninf =>
      if m = 0 then F32.nan else if 0 < m then F32.ninf else F32.pinf

/-- binary32 division: round the exact quotient; `0/0` is NaN, `x/0` is a
signed infinity. -/
def fdiv : F32 → F32 → F32
  | F32.fin m1 e1, F32.fin m2 e2 =>
      if m2 = 0 then
        if m1 = 0 then F32.nan else if 0 < m1 then F32.pinf else F32.ninf
      else if m1 = 0 then F32.fin 0 0
      else
        let d := e1 - e2
        let p : Nat × Nat :=
          if 0 ≤ d then (m1.natAbs * 2 ^ d.toNat, m2.natAbs)
          else (m1.natAbs, m2.natAbs * 2 ^ (-d).toNat)
        if (0 < m1) = (0 < m2) then roundPosRat p.1 p.2
        else (roundPosRat p.1 p.2).neg
  | F32.nan, _ => F32.nan
  | _, F32.nan => F32.nan
  | F32.pinf, F32.pinf => F32.nan
  | F32.pinf, F32.ninf => F32.nan
  | F32.ninf, F32.pinf => F32.nan
  | F32.ninf, F32.ninf => F32.nan
  | F32.pinf, F32.fin m _ => if 0 ≤ m then F32.pinf else F32.ninf
  | F32.ninf, F32.fin m _ => if 0 ≤ m then F32.ninf else F32.pinf
  | F32.fin _ _, F32.pinf => F32.fin 0 0
  | F32.fin _ _, F32.ninf => F32.fin 0 0

/-- Rust `f32 as usize` (64-bit): saturating truncation toward zero;
NaN maps to 0. -/
def f32ToUsize : F32 → Nat
  | F32.nan => 0
  | F32.ninf => 0
  | F32.pinf => 2 ^ 64 - 1
  | F32.fin m e =>
      if m ≤ 0 then 0
      else
        let v := if 0 ≤ e then m.toNat * 2 ^ e.toNat else m.toNat / 2 ^ (-e).toNat
        min v (2 ^ 64 - 1)

/-- The bucket configuration of a linear histogram (`LinearBuckets`). -/
structure LinearBuckets where
  min : Nat
  max : Nat
  buckets : Nat
deriving DecidableEq

namespace LinearBuckets

/-- `LinearBuckets::new`: the three `assert!`s are modelled by `none`
(panic) and a successful construction by `some`. -/
def new (mn mx buckets : Nat) : Option LinearBuckets :=
  if mn < mx then
    if 0 < buckets then
      if buckets < mx - mn then some ⟨mn, mx, buckets⟩ else none
    else none
  else none

/-- `LinearBuckets::get_bucket`, with the interior case computed in
binary32 arithmetic exactly as the source does. -/
def get_bucket (self : LinearBuckets) (value : Nat) : Nat :=
  if value ≤ self.min then 0
  else if self.max ≤ value then self.buckets - 1
  else
    let num := fsub (natToF32 value) (natToF32 self.min)
    let den := fsub (natToF32 self.max) (natToF32 self.min)
    let res := fmul (fdiv num den) (natToF32 self.buckets)
    f32ToUsize res

end LinearBuckets

/-- The `Flatten` trait: a value that can be represented as a u32. -/
class Flatten (α : Type) where
  as_u32 : α → Nat

instance : Flatten Nat := ⟨fun n => n⟩

instance : Flatten Unit := ⟨fun _ => 0⟩

instance : Flatten Bool := ⟨fun b => if b then 1 else 0⟩

/-- The physical state of a `Vec<T>`: its memory cells up to capacity
(`none` marks an uninitialized cell) and its reported length. -/
structure RawVec (α : Type) where
  cells : List (Option α)
  len : Nat
deriving DecidableEq

/-- The `RawVec` describing a fully initialized vector with the given
elements (capacity equals length). -/
def RawVec.ofList (l : List α) : RawVec α :=
  ⟨l.map some, l.length⟩

/-- Every cell below the reported length is initialized. -/
def RawVec.initUpToLen (v : RawVec α) : Prop :=
  ∀ i, i < v.len → ∃ a, v.cells.get? i = some (some a)

/-- The loop of `vec_resize`, `for i in 1..delta`: in iteration `i`,
clone the fill value (consuming one unit of the clone budget; with the
budget exhausted the clone panics, yielding `Except.error` with the state
at the panic), `ptr::write` it to cell `len0 + i - 1`, then
`set_len(len0 + i)`.  `rem` counts the remaining iterations. -/
def writeLoop (value : α) (len0 : Nat) : RawVec α → Nat → Nat → Nat →
    Except (RawVec α) (RawVec α × Nat)
  | v, _, 0, b => Except.ok (v, b)
  | v, _, _ + 1, 0 => Except.error v
  | v, i, rem + 1, b + 1 =>
      writeLoop value len0
        ⟨v.cells.set (len0 + i - 1) (some value), len0 + i⟩ (i + 1) rem b

/-- `vec_resize` (the crate's partial reimplementation of `Vec::resize`):
no-op when `min_len <= len`; otherwise reserve, clone-and-write
`delta - 1` elements one at a time with incremental `set_len`, and move
the fill value itself into the last slot.  The clone budget `b` is the
number of clones that succeed before one panics. -/
def vec_resize (vec : RawVec α) (min_len : Nat) (value : α) (b : Nat) :
    Except (RawVec α) (RawVec α) :=
  let len := vec.len
  if min_len ≤ len then Except.ok vec
  else
    let delta := min_len - len
    let grown : RawVec α :=
      ⟨vec.cells ++ List.replicate (len + delta - vec.cells.length) none, vec.len⟩
    match writeLoop value len grown 1 (delta - 1) b with
    | Except.error v => Except.error v
    | Except.ok (v, _) =>
        Except.ok ⟨v.cells.set (len + delta - 1) (some value), len + delta⟩

/-- The loop of `vec_with_size`, `for i in 0..size`: clone the fill value
(panicking when the budget is exhausted, with the state at the panic)
and assign it to cell `i`.  The length is `size` throughout. -/
def fillLoop (value : α) : RawVec α → Nat → Nat → Nat →
    Except (RawVec α) (RawVec α × Nat)
  | v, _, 0, b => Except.ok (v, b)
  | v, _, _ + 1, 0 => Except.error v
  | v, i, rem + 1, b + 1 =>
      fillLoop value ⟨v.cells.set i (some value), v.len⟩ (i + 1) rem b

/-- `vec_with_size`: `Vec::with_capacity(size)`, then `set_len(size)`
up front, then clone the fill value into each of the `size` cells. -/
def vec_with_size (size : Nat) (value : α) (b : Nat) :
    Except (RawVec α) (RawVec α) :=
  let v : RawVec α := ⟨List.replicate size none, size⟩
  match fillLoop value v 0 size b with
  | Except.error v => Except.error v
  | Except.ok (v, _) => Except.ok v

/-!
## Proof layer: rounding to nearest, ties to even, over ℚ
-/

/-- Round a rational to the nearest integer, ties to even: the
mathematical specification of `rnNat`. -/
def rnQ (q : ℚ) : ℤ :=
  if q - ⌊q⌋ < 1/2 then ⌊q⌋
  else if 1/2 < q - ⌊q⌋ then ⌊q⌋ + 1
  else if 2 ∣ ⌊q⌋ then ⌊q⌋ else ⌊q⌋ + 1

lemma floor_le_rnQ (q : ℚ) : ⌊q⌋ ≤ rnQ q := by
  unfold rnQ; split_ifs <;> omega

lemma rnQ_le_floor_add_one (q : ℚ) : rnQ q ≤ ⌊q⌋ + 1 := by
  unfold rnQ; split_ifs <;> omega

lemma rnQ_intCast (n : ℤ) : rnQ (n : ℚ) = n := by
  unfold rnQ
  rw [Int.floor_intCast]
  norm_num

lemma rnQ_mono {q q' : ℚ} (h : q ≤ q') : rnQ q ≤ rnQ q' := by
  rcases lt_or_le ⌊q⌋ ⌊q'⌋ with hf | hf
  · calc rnQ q ≤ ⌊q⌋ + 1 := rnQ_le_floor_add_one q
      _ ≤ ⌊q'⌋ := hf
      _ ≤ rnQ q' := floor_le_rnQ q'
  · have hf' : ⌊q⌋ = ⌊q'⌋ := le_antisymm (Int.floor_le_floor h) hf
    have hd : q - (⌊q⌋ : ℚ) ≤ q' - (⌊q'⌋ : ℚ) := by
      rw [hf']; exact sub_le_sub_right h _
    unfold rnQ
    rw [hf'] at hd ⊢
    split_ifs with h1 h2 h3 h4 h5 h6 h7 <;> first
      | omega
      | (exfalso; linarith)

lemma rnQ_le_half (q : ℚ) : (rnQ q : ℚ) ≤ q + 1/2 := by
  have h1 : (⌊q⌋ : ℚ) ≤ q := Int.floor_le q
  unfold rnQ
  split_ifs with ha hb hc <;> push_cast <;> linarith

lemma rnQ_ge_half (q : ℚ) : q - 1/2 ≤ (rnQ q : ℚ) := by
  have h2 : q < ⌊q⌋ + 1 := Int.lt_floor_add_one q
  unfold rnQ
  split_ifs with ha hb hc <;> push_cast <;> linarith

lemma rnQ_nonneg {q : ℚ} (h : 0 ≤ q) : 0 ≤ rnQ q := by
  have := floor_le_rnQ q
  have := Int.floor_nonneg.mpr h
  omega

lemma rnQ_eq_zero {q : ℚ} (h0 : 0 ≤ q) (h : q ≤ 1/2) : rnQ q = 0 := by
  have hf : ⌊q⌋ = 0 := by
    rw [Int.floor_eq_iff]
    constructor
    · push_cast; linarith
    · push_cast; linarith
  unfold rnQ
  rw [hf]
  split_ifs with h1 h2 h3 <;> first
    | rfl
    | (exfalso; push_cast at h2; linarith)
    | (exfalso; exact h3 ⟨0, rfl⟩)

/-- `rnNat` computes `rnQ` of the corresponding fraction. -/
lemma rnNat_eq_rnQ (num den : ℕ) (hden : 0 < den) :
    (rnNat num den : ℤ) = rnQ ((num : ℚ) / (den : ℚ)) := by
  set q : ℚ := (num : ℚ) / (den : ℚ) with hq
  have hdenQ : (0 : ℚ) < (den : ℚ) := by exact_mod_cast hden
  have hq0 : 0 ≤ q := by positivity
  have hfloor : ⌊q⌋ = ((num / den : ℕ) : ℤ) := by
    rw [← Int.natCast_floor_eq_floor hq0]
    congr 1
    rw [hq, Nat.floor_div_nat, Nat.floor_natCast]
  have hcast : ((num / den : ℕ) : ℚ) * (den : ℚ) + ((num % den : ℕ) : ℚ) = (num : ℚ) := by
    exact_mod_cast congrArg (fun k : ℕ => (k : ℚ)) (Nat.div_add_mod' num den)
  have hmod : q - (⌊q⌋ : ℚ) = ((num % den : ℕ) : ℚ) / (den : ℚ) := by
    rw [hfloor, eq_div_iff (ne_of_gt hdenQ), sub_mul, hq,
      div_mul_cancel₀ _ (ne_of_gt hdenQ), Int.cast_natCast]
    linarith
  have hlt : (q - (⌊q⌋ : ℚ) < 1/2) ↔ (2 * (num % den) < den) := by
    rw [hmod, div_lt_iff₀ hdenQ]
    constructor
    · intro h
      have h2 : ((2 * (num % den) : ℕ) : ℚ) < ((den : ℕ) : ℚ) := by push_cast; linarith
      exact_mod_cast h2
    · intro h
      have h2 : ((2 * (num % den) : ℕ) : ℚ) < ((den : ℕ) : ℚ) := Nat.cast_lt.mpr h
      push_cast at h2
      linarith
  have hgt : (1/2 < q - (⌊q⌋ : ℚ)) ↔ (den < 2 * (num % den)) := by
    rw [hmod, lt_div_iff₀ hdenQ]
    constructor
    · intro h
      have h2 : ((den : ℕ) : ℚ) < ((2 * (num % den) : ℕ) : ℚ) := by push_cast; linarith
      exact_mod_cast h2
    · intro h
      have h2 : ((den : ℕ) : ℚ) < ((2 * (num % den) : ℕ) : ℚ) := Nat.cast_lt.mpr h
      push_cast at h2
      linarith
  have hpar : (2 ∣ ⌊q⌋) ↔ (num / den % 2 = 0) := by
    rw [hfloor]; omega
  unfold rnNat rnQ
  split_ifs with h1 h2 h3 h4 h5 h6 h7 <;>
    simp_all [hfloor] <;> omega

/-!
## Proof layer: base-2 logarithms
-/

lemma log2fuel_spec : ∀ fuel n, 0 < n → n ≤ fuel →
    2 ^ log2fuel fuel n ≤ n ∧ n < 2 ^ (log2fuel fuel n + 1) := by
  intro fuel
  induction fuel with
  | zero => intro n h1 h2; omega
  | succ f ih =>
    intro n h1 h2
    by_cases hn : n ≤ 1
    · have hn1 : n = 1 := by omega
      subst hn1
      simp [log2fuel]
    · have h2' : n / 2 ≤ f := by omega
      have h1' : 0 < n / 2 := by omega
      obtain ⟨ha, hb⟩ := ih (n / 2) h1' h2'
      have hL : log2fuel (f + 1) n = log2fuel f (n / 2) + 1 := by
        rw [show log2fuel (f + 1) n
            = if n ≤ 1 then 0 else log2fuel f (n / 2) + 1 from rfl, if_neg hn]
      set L := log2fuel f (n / 2) with hLdef
      rw [hL]
      have p1 : (2 : ℕ) ^ (L + 1) = 2 * 2 ^ L := by ring
      have p2 : (2 : ℕ) ^ (L + 1 + 1) = 4 * 2 ^ L := by ring
      rw [p1] at hb
      refine ⟨?_, ?_⟩
      · rw [p1]; omega
      · rw [p2]; omega

lemma log2n_spec {n : ℕ} (h : 0 < n) :
    2 ^ log2n n ≤ n ∧ n < 2 ^ (log2n n + 1) :=
  log2fuel_spec n n h le_rfl

lemma qlt2pow_iff (num den : ℕ) (hd : 0 < den) (c : ℤ) :
    qlt2pow num den c = true ↔ (num : ℚ) / den < (2 : ℚ) ^ c := by
  have hdenQ : (0 : ℚ) < (den : ℚ) := by exact_mod_cast hd
  unfold qlt2pow
  split_ifs with hc
  · have h2 : ((2 : ℚ)) ^ c = ((2 ^ c.toNat : ℕ) : ℚ) := by
      push_cast
      rw [← zpow_natCast]
      congr 1
      omega
    rw [div_lt_iff₀ hdenQ, h2]
    rw [show ((2 ^ c.toNat : ℕ) : ℚ) * (den : ℚ) = ((den * 2 ^ c.toNat : ℕ) : ℚ) by
      push_cast; ring]
    simp only [decide_eq_true_eq]
    exact ⟨fun h => Nat.cast_lt.mpr h, fun h => Nat.cast_lt.mp h⟩
  · have hp : (0 : ℚ) < ((2 ^ (-c).toNat : ℕ) : ℚ) := by positivity
    have h2 : ((2 : ℚ)) ^ c = (((2 ^ (-c).toNat : ℕ) : ℚ))⁻¹ := by
      set k := (-c).toNat with hkdef
      have hc' : c = -(k : ℤ) := by omega
      rw [hc', zpow_neg]
      congr 1
      push_cast
      rw [← zpow_natCast]
    rw [h2, div_lt_iff₀ hdenQ, inv_mul_eq_div, lt_div_iff₀ hp]
    rw [show (num : ℚ) * ((2 ^ (-c).toNat : ℕ) : ℚ) = ((num * 2 ^ (-c).toNat : ℕ) : ℚ) by
      push_cast; ring]
    simp only [decide_eq_true_eq]
    exact ⟨fun h => Nat.cast_lt.mpr h, fun h => Nat.cast_lt.mp h⟩

lemma ilog2N_spec {num den : ℕ} (hn : 0 < num) (hd : 0 < den) :
    (2 : ℚ) ^ ilog2N num den ≤ (num : ℚ) / den ∧
      (num : ℚ) / den < (2 : ℚ) ^ (ilog2N num den + 1) := by
  have hdenQ : (0 : ℚ) < (den : ℚ) := by exact_mod_cast hd
  obtain ⟨ha1, ha2⟩ := log2n_spec hn
  obtain ⟨hb1, hb2⟩ := log2n_spec hd
  set a := log2n num with hadef
  set b := log2n den with hbdef
  set c : ℤ := (a : ℤ) - (b : ℤ) with hcdef
  have hpow : ∀ k : ℕ, ((2 ^ k : ℕ) : ℚ) = (2 : ℚ) ^ (k : ℤ) := by
    intro k; push_cast; rw [← zpow_natCast]
  have hlow : (2 : ℚ) ^ (c - 1) < (num : ℚ) / den := by
    have h1 : (2 : ℚ) ^ (a : ℤ) ≤ (num : ℚ) := by
      rw [← hpow]; exact_mod_cast ha1
    have h2 : (den : ℚ) < (2 : ℚ) ^ ((b : ℤ) + 1) := by
      rw [show ((b : ℤ) + 1) = ((b + 1 : ℕ) : ℤ) by push_cast; ring, ← hpow]
      exact_mod_cast hb2
    rw [lt_div_iff₀ hdenQ]
    calc (2 : ℚ) ^ (c - 1) * (den : ℚ)
        < (2 : ℚ) ^ (c - 1) * (2 : ℚ) ^ ((b : ℤ) + 1) := by
          apply mul_lt_mul_of_pos_left h2
          positivity
      _ = (2 : ℚ) ^ (a : ℤ) := by
          rw [← zpow_add₀ (by norm_num : (2 : ℚ) ≠ 0)]
          congr 1
          omega
      _ ≤ (num : ℚ) := h1
  have hhigh : (num : ℚ) / den < (2 : ℚ) ^ (c + 1) := by
    have h1 : (num : ℚ) < (2 : ℚ) ^ ((a : ℤ) + 1) := by
      rw [show ((a : ℤ) + 1) = ((a + 1 : ℕ) : ℤ) by push_cast; ring, ← hpow]
      exact_mod_cast ha2
    have h2 : (2 : ℚ) ^ (b : ℤ) ≤ (den : ℚ) := by
      rw [← hpow]; exact_mod_cast hb1
    rw [div_lt_iff₀ hdenQ]
    calc (num : ℚ) < (2 : ℚ) ^ ((a : ℤ) + 1) := h1
      _ = (2 : ℚ) ^ (c + 1) * (2 : ℚ) ^ (b : ℤ) := by
          rw [← zpow_add₀ (by norm_num : (2 : ℚ) ≠ 0)]
          congr 1
          omega
      _ ≤ (2 : ℚ) ^ (c + 1) * (den : ℚ) := by
          apply mul_le_mul_of_nonneg_left h2
          positivity
  unfold ilog2N
  rw [← hadef, ← hbdef, ← hcdef]
  by_cases hq : qlt2pow num den c = true
  · rw [if_pos hq]
    rw [qlt2pow_iff num den hd c] at hq
    constructor
    · exact le_of_lt hlow
    · rw [show c - 1 + 1 = c by ring]; exact hq
  · rw [if_neg hq]
    rw [qlt2pow_iff num den hd c] at hq
    exact ⟨le_of_not_lt hq, hhigh⟩

/-- The binary32 quantization scale of a positive rational: `e - 23`
clamped below at `-149` (subnormal range). -/
def sc (q : ℚ) : ℤ := max (-149) (Int.log 2 q - 23)

/-- Rounding of a positive rational to binary32 (value level): round
`q / 2^sc` to the nearest integer, ties to even, and rescale. -/
def rpos (q : ℚ) : ℚ := ((rnQ (q * 2 ^ (-(sc q)))) : ℚ) * 2 ^ (sc q)

lemma ilog2N_eq_log {num den : ℕ} (hn : 0 < num) (hd : 0 < den) :
    ilog2N num den = Int.log 2 ((num : ℚ) / den) := by
  obtain ⟨h1, h2⟩ := ilog2N_spec hn hd
  have hq : (0 : ℚ) < (num : ℚ) / den := by positivity
  have hb : (1 : ℕ) < 2 := one_lt_two
  have hle : ilog2N num den ≤ Int.log 2 ((num : ℚ) / den) := by
    have := (Int.zpow_le_iff_le_log hb hq).mp (by exact_mod_cast h1)
    exact this
  have hlt : Int.log 2 ((num : ℚ) / den) < ilog2N num den + 1 := by
    have := (Int.lt_zpow_iff_log_lt hb hq).mp (by exact_mod_cast h2)
    exact this
  omega

lemma shiftPair_den_pos (num den : ℕ) (hd : 0 < den) (s : ℤ) :
    0 < (shiftPair num den s).2 := by
  unfold shiftPair
  split_ifs <;> simp <;> positivity

lemma shiftPair_num_pos (num den : ℕ) (hn : 0 < num) (s : ℤ) :
    0 < (shiftPair num den s).1 := by
  unfold shiftPair
  split_ifs <;> simp <;> positivity

lemma shiftPair_val (num den : ℕ) (hd : 0 < den) (s : ℤ) :
    (((shiftPair num den s).1 : ℕ) : ℚ) / (((shiftPair num den s).2 : ℕ) : ℚ)
      = ((num : ℚ) / den) * 2 ^ (-s) := by
  have h2 : ∀ t : ℤ, 0 ≤ t → ((2 ^ t.toNat : ℕ) : ℚ) = (2 : ℚ) ^ t := by
    intro t ht
    push_cast
    rw [← zpow_natCast]
    congr 1
    omega
  unfold shiftPair
  split_ifs with hs
  · simp only []
    rw [zpow_neg, ← div_eq_mul_inv, div_div]
    congr 1
    push_cast [← h2 s hs]
    push_cast
    ring
  · simp only []
    rw [show (2 : ℚ) ^ (-s) = ((2 ^ (-s).toNat : ℕ) : ℚ) from (h2 (-s) (by omega)).symm]
    push_cast
    ring

lemma two_zpow_log_le {q : ℚ} (hq : 0 < q) : (2 : ℚ) ^ Int.log 2 q ≤ q := by
  exact_mod_cast Int.zpow_log_le_self (one_lt_two : (1 : ℕ) < 2) hq

lemma lt_two_zpow_succ_log (q : ℚ) : q < (2 : ℚ) ^ (Int.log 2 q + 1) := by
  exact_mod_cast Int.lt_zpow_succ_log_self (one_lt_two : (1 : ℕ) < 2) q

lemma log_lt_of_lt_zpow {q : ℚ} {t : ℤ} (hq : 0 < q) (h : q < (2 : ℚ) ^ t) :
    Int.log 2 q < t := by
  apply (Int.lt_zpow_iff_log_lt (one_lt_two : (1 : ℕ) < 2) hq).mp
  exact_mod_cast h

lemma neg_149_le_sc (q : ℚ) : -149 ≤ sc q := le_max_left _ _

lemma sc_le (q : ℚ) : Int.log 2 q - 23 ≤ sc q := le_max_right _ _

lemma rpos_nonneg {q : ℚ} (hq : 0 ≤ q) : 0 ≤ rpos q := by
  unfold rpos
  have h1 : 0 ≤ rnQ (q * 2 ^ (-(sc q))) := rnQ_nonneg (by positivity)
  have h2 : (0 : ℚ) ≤ 2 ^ (sc q) := by positivity
  have h1' : (0 : ℚ) ≤ (rnQ (q * 2 ^ (-(sc q))) : ℚ) := by exact_mod_cast h1
  exact mul_nonneg h1' h2

lemma two_zpow_pos (t : ℤ) : (0 : ℚ) < 2 ^ t := by positivity

lemma two_zpow_add (a b : ℤ) : (2 : ℚ) ^ (a + b) = 2 ^ a * 2 ^ b :=
  zpow_add₀ (by norm_num) a b

lemma cast_two_pow_toNat {t : ℤ} (ht : 0 ≤ t) :
    ((2 ^ t.toNat : ℕ) : ℚ) = (2 : ℚ) ^ t := by
  push_cast
  rw [← zpow_natCast (2 : ℚ) t.toNat, Int.toNat_of_nonneg ht]

lemma cast_two_pow_toNat' {t : ℤ} (ht : 0 ≤ t) :
    ((2 ^ t.toNat : ℤ) : ℚ) = (2 : ℚ) ^ t := by
  push_cast
  rw [← zpow_natCast (2 : ℚ) t.toNat, Int.toNat_of_nonneg ht]

lemma rpos_le_pow {q : ℚ} (hq : 0 < q) : rpos q ≤ 2 ^ (Int.log 2 q + 1) := by
  have hxle : q * 2 ^ (-(sc q)) ≤ 2 ^ (Int.log 2 q + 1 - sc q) := by
    calc q * 2 ^ (-(sc q))
        ≤ 2 ^ (Int.log 2 q + 1) * 2 ^ (-(sc q)) :=
          mul_le_mul_of_nonneg_right (le_of_lt (lt_two_zpow_succ_log q))
            (le_of_lt (two_zpow_pos _))
      _ = 2 ^ (Int.log 2 q + 1 - sc q) := by
          rw [← two_zpow_add, sub_eq_add_neg]
  by_cases hts : 0 ≤ Int.log 2 q + 1 - sc q
  · have hint : ((2 ^ (Int.log 2 q + 1 - sc q).toNat : ℤ) : ℚ)
        = 2 ^ (Int.log 2 q + 1 - sc q) := cast_two_pow_toNat' hts
    have hrn : rnQ (q * 2 ^ (-(sc q))) ≤ (2 ^ (Int.log 2 q + 1 - sc q).toNat : ℤ) := by
      calc rnQ (q * 2 ^ (-(sc q)))
          ≤ rnQ (((2 ^ (Int.log 2 q + 1 - sc q).toNat : ℤ)) : ℚ) :=
            rnQ_mono (by rw [hint]; exact hxle)
        _ = _ := rnQ_intCast _
    unfold rpos
    calc ((rnQ (q * 2 ^ (-(sc q))) : ℤ) : ℚ) * 2 ^ (sc q)
        ≤ 2 ^ (Int.log 2 q + 1 - sc q) * 2 ^ (sc q) := by
          apply mul_le_mul_of_nonneg_right _ (le_of_lt (two_zpow_pos _))
          rw [← hint]
          exact_mod_cast hrn
      _ = 2 ^ (Int.log 2 q + 1) := by
          rw [← two_zpow_add]
          congr 1
          ring
  · have hhalf : q * 2 ^ (-(sc q)) ≤ 1 / 2 := by
      calc q * 2 ^ (-(sc q)) ≤ 2 ^ (Int.log 2 q + 1 - sc q) := hxle
        _ ≤ 2 ^ (-1 : ℤ) := zpow_le_zpow_right₀ one_le_two (by omega)
        _ = 1 / 2 := by
            rw [show (-1 : ℤ) = -(1 : ℤ) from rfl, zpow_neg, zpow_one]
            norm_num
    have hz : rnQ (q * 2 ^ (-(sc q))) = 0 := rnQ_eq_zero (by positivity) hhalf
    unfold rpos
    rw [hz, Int.cast_zero, zero_mul]
    exact le_of_lt (two_zpow_pos _)

lemma pow_le_rpos {q : ℚ} (hq : 0 < q) (hsc : sc q = Int.log 2 q - 23) :
    2 ^ Int.log 2 q ≤ rpos q := by
  have h23 : ((2 ^ 23 : ℤ) : ℚ) = (2 : ℚ) ^ (23 : ℤ) := by
    rw [show (23 : ℤ) = ((23 : ℕ) : ℤ) from rfl, zpow_natCast]
    push_cast
    ring
  have hxge : ((2 ^ 23 : ℤ) : ℚ) ≤ q * 2 ^ (-(sc q)) := by
    rw [h23]
    calc (2 : ℚ) ^ (23 : ℤ) = 2 ^ (Int.log 2 q + -(sc q)) := by
          congr 1
          omega
      _ = 2 ^ Int.log 2 q * 2 ^ (-(sc q)) := two_zpow_add _ _
      _ ≤ q * 2 ^ (-(sc q)) :=
          mul_le_mul_of_nonneg_right (two_zpow_log_le hq)
            (le_of_lt (two_zpow_pos _))
  have hrn : (2 ^ 23 : ℤ) ≤ rnQ (q * 2 ^ (-(sc q))) := by
    calc (2 ^ 23 : ℤ) = rnQ (((2 ^ 23 : ℤ)) : ℚ) := (rnQ_intCast _).symm
      _ ≤ _ := rnQ_mono hxge
  unfold rpos
  calc (2 : ℚ) ^ Int.log 2 q = 2 ^ ((23 : ℤ) + sc q) := by
        congr 1
        omega
    _ = 2 ^ (23 : ℤ) * 2 ^ sc q := two_zpow_add _ _
    _ ≤ ((rnQ (q * 2 ^ (-(sc q))) : ℤ) : ℚ) * 2 ^ sc q := by
        apply mul_le_mul_of_nonneg_right _ (le_of_lt (two_zpow_pos _))
        rw [← h23]
        exact_mod_cast hrn

lemma sc_mono {q q' : ℚ} (hq : 0 < q) (h : q ≤ q') : sc q ≤ sc q' := by
  have hlog := @Int.log_mono_right ℚ _ _ 2 q q' hq h
  exact max_le_max le_rfl (by omega)

lemma rpos_mono {q q' : ℚ} (hq : 0 < q) (h : q ≤ q') : rpos q ≤ rpos q' := by
  have hq' : 0 < q' := lt_of_lt_of_le hq h
  rcases eq_or_lt_of_le (sc_mono hq h) with he | hlt
  · unfold rpos
    rw [← he]
    have hrn : rnQ (q * 2 ^ (-(sc q))) ≤ rnQ (q' * 2 ^ (-(sc q))) :=
      rnQ_mono (mul_le_mul_of_nonneg_right h (le_of_lt (two_zpow_pos _)))
    apply mul_le_mul_of_nonneg_right _ (le_of_lt (two_zpow_pos _))
    exact_mod_cast hrn
  · have h1 := neg_149_le_sc q
    have hsq' : sc q' = Int.log 2 q' - 23 := by
      rcases max_choice (-149 : ℤ) (Int.log 2 q' - 23) with hcase | hcase
      · exfalso
        have h2 : sc q' = -149 := hcase
        omega
      · exact hcase
    have hlog : Int.log 2 q < Int.log 2 q' := by
      have h2 := sc_le q
      rw [hsq'] at hlt
      omega
    calc rpos q ≤ 2 ^ (Int.log 2 q + 1) := rpos_le_pow hq
      _ ≤ 2 ^ Int.log 2 q' := zpow_le_zpow_right₀ one_le_two (by omega)
      _ ≤ rpos q' := pow_le_rpos hq' hsq'

lemma rpos_exact {k : ℕ} {t : ℤ} (hk : 0 < k) (hk24 : k < 2 ^ 24)
    (ht : -149 ≤ t) : rpos ((k : ℚ) * 2 ^ t) = (k : ℚ) * 2 ^ t := by
  have hkQ : (0 : ℚ) < (k : ℚ) := by exact_mod_cast hk
  have hq : (0 : ℚ) < (k : ℚ) * 2 ^ t := by positivity
  have hklt : (k : ℚ) < 2 ^ (24 : ℤ) := by
    have h1 : ((k : ℕ) : ℚ) < ((2 ^ 24 : ℕ) : ℚ) := Nat.cast_lt.mpr hk24
    have h2 : ((2 ^ 24 : ℕ) : ℚ) = (2 : ℚ) ^ (24 : ℤ) :=
      cast_two_pow_toNat (by norm_num : (0 : ℤ) ≤ 24)
    rw [h2] at h1
    exact h1
  have hlog : Int.log 2 ((k : ℚ) * 2 ^ t) ≤ t + 23 := by
    have hlt : (k : ℚ) * 2 ^ t < 2 ^ (t + 24) := by
      calc (k : ℚ) * 2 ^ t < 2 ^ (24 : ℤ) * 2 ^ t :=
            mul_lt_mul_of_pos_right hklt (two_zpow_pos _)
        _ = 2 ^ (t + 24) := by
            rw [← two_zpow_add]
            congr 1
            ring
    have := log_lt_of_lt_zpow hq hlt
    omega
  have hsc_le : sc ((k : ℚ) * 2 ^ t) ≤ t := max_le ht (by omega)
  set s := sc ((k : ℚ) * 2 ^ t) with hsdef
  have hts : (0 : ℤ) ≤ t - s := by omega
  have hx : (k : ℚ) * 2 ^ t * 2 ^ (-s) = (((k : ℤ) * 2 ^ (t - s).toNat : ℤ) : ℚ) := by
    push_cast
    rw [← zpow_natCast (2 : ℚ) (t - s).toNat, Int.toNat_of_nonneg hts, mul_assoc,
      ← two_zpow_add, show t + -s = t - s by ring]
  have hrnx : rnQ ((k : ℚ) * 2 ^ t * 2 ^ (-s)) = (k : ℤ) * 2 ^ (t - s).toNat := by
    rw [hx]
    exact rnQ_intCast _
  unfold rpos
  rw [← hsdef, hrnx]
  push_cast
  rw [← zpow_natCast (2 : ℚ) (t - s).toNat, Int.toNat_of_nonneg hts, mul_assoc,
    ← two_zpow_add, show t - s + s = t by ring]

lemma rpos_natCast {n : ℕ} (h1 : 0 < n) (h2 : n ≤ 2 ^ 24) :
    rpos (n : ℚ) = (n : ℚ) := by
  rcases lt_or_eq_of_le h2 with hlt | heq
  · have := rpos_exact h1 hlt (by norm_num : (-149 : ℤ) ≤ 0)
    rw [zpow_zero, mul_one] at this
    exact this
  · have h24 : ((n : ℕ) : ℚ) = (1 : ℚ) * 2 ^ (24 : ℤ) := by
      rw [heq, one_mul, ← cast_two_pow_toNat (by norm_num : (0 : ℤ) ≤ 24)]
      rw [show (24 : ℤ).toNat = 24 from rfl]
    have hex := @rpos_exact 1 24 one_pos (by norm_num) (by norm_num)
    rw [Nat.cast_one] at hex
    rw [h24, hex]

lemma rpos_le_add {q : ℚ} (hq : 0 < q) : rpos q ≤ q + 2 ^ (sc q - 1) := by
  have h1 : ((rnQ (q * 2 ^ (-(sc q))) : ℤ) : ℚ) ≤ q * 2 ^ (-(sc q)) + 1 / 2 :=
    rnQ_le_half _
  unfold rpos
  calc ((rnQ (q * 2 ^ (-(sc q))) : ℤ) : ℚ) * 2 ^ (sc q)
      ≤ (q * 2 ^ (-(sc q)) + 1 / 2) * 2 ^ (sc q) :=
        mul_le_mul_of_nonneg_right h1 (le_of_lt (two_zpow_pos _))
    _ = q * (2 ^ (-(sc q)) * 2 ^ (sc q)) + 1 / 2 * 2 ^ (sc q) := by ring
    _ = q + 2 ^ (sc q - 1) := by
        rw [← two_zpow_add, show -(sc q) + sc q = 0 by ring, zpow_zero, mul_one]
        congr 1
        rw [show sc q - 1 = -1 + sc q by ring, two_zpow_add,
          show (-1 : ℤ) = -(1 : ℤ) from rfl, zpow_neg, zpow_one]
        ring

lemma rpos_topBound {b : ℕ} (hb : 0 < b) (hb24 : (b : ℚ) ≤ 2 ^ (24 : ℤ))
    {x : ℚ} (hx : 0 < x)
    (hxb : x ≤ (b : ℚ) - (b : ℚ) * 2 ^ (-24 : ℤ)) : rpos x < (b : ℚ) := by
  have hbQ : (0 : ℚ) < (b : ℚ) := by exact_mod_cast hb
  have hxltb : x < (b : ℚ) := by
    have h0 : (0 : ℚ) < (b : ℚ) * 2 ^ (-24 : ℤ) := by positivity
    linarith
  have key : (2 : ℚ) ^ (sc x - 1) < (b : ℚ) * 2 ^ (-24 : ℤ) := by
    rcases max_choice (-149 : ℤ) (Int.log 2 x - 23) with h | h
    · have hsx : sc x = -149 := h
      rw [hsx]
      have h1 : (2 : ℚ) ^ (-149 - 1 : ℤ) < 2 ^ (-24 : ℤ) := by
        apply zpow_lt_zpow_right₀ one_lt_two
        omega
      have h2 : (2 : ℚ) ^ (-24 : ℤ) ≤ (b : ℚ) * 2 ^ (-24 : ℤ) := by
        apply le_mul_of_one_le_left (le_of_lt (two_zpow_pos _))
        exact_mod_cast hb
      linarith
    · have hsx : sc x = Int.log 2 x - 23 := h
      have hlogx : (2 : ℚ) ^ Int.log 2 x < (b : ℚ) :=
        lt_of_le_of_lt (two_zpow_log_le hx) hxltb
      calc (2 : ℚ) ^ (sc x - 1)
          = 2 ^ Int.log 2 x * 2 ^ (-24 : ℤ) := by
            rw [← two_zpow_add]
            congr 1
            omega
        _ < (b : ℚ) * 2 ^ (-24 : ℤ) :=
            mul_lt_mul_of_pos_right hlogx (two_zpow_pos _)
  calc rpos x ≤ x + 2 ^ (sc x - 1) := rpos_le_add hx
    _ < ((b : ℚ) - (b : ℚ) * 2 ^ (-24 : ℤ)) + (b : ℚ) * 2 ^ (-24 : ℤ) := by
        linarith
    _ = (b : ℚ) := by ring

lemma rpos_pos {q : ℚ} (h : (2 : ℚ) ^ (-126 : ℤ) ≤ q) : 0 < rpos q := by
  have hq : 0 < q := lt_of_lt_of_le (by positivity) h
  have hlog : -126 ≤ Int.log 2 q := by
    by_contra hcon
    push_neg at hcon
    have h2 : q < (2 : ℚ) ^ (-126 : ℤ) := by
      calc q < 2 ^ (Int.log 2 q + 1) := lt_two_zpow_succ_log q
        _ ≤ 2 ^ (-126 : ℤ) := zpow_le_zpow_right₀ one_le_two (by omega)
    linarith
  have hsc : sc q = Int.log 2 q - 23 := max_eq_right (by omega)
  calc (0 : ℚ) < 2 ^ Int.log 2 q := two_zpow_pos _
    _ ≤ rpos q := pow_le_rpos hq hsc

/-- `roundPosRat` computes the value-level rounding `rpos` (absent
overflow): it returns a finite value whose significand is the rounded
scaled integer and whose exponent is the scale. -/
lemma roundPosRat_eq {num den : ℕ} (hn : 0 < num) (hd : 0 < den)
    (hov : rpos ((num : ℚ) / den) < 2 ^ (128 : ℤ)) :
    roundPosRat num den =
      F32.fin (rnQ (((num : ℚ) / den) * 2 ^ (-(sc ((num : ℚ) / den)))))
        (sc ((num : ℚ) / den)) := by
  have hq : (0 : ℚ) < (num : ℚ) / den := by positivity
  have hlog : ilog2N num den = Int.log 2 ((num : ℚ) / den) := ilog2N_eq_log hn hd
  have hsc : max (-149) (ilog2N num den - 23) = sc ((num : ℚ) / den) := by
    rw [hlog]; rfl
  have hdp := shiftPair_den_pos num den hd (sc ((num : ℚ) / den))
  have hm : ((rnNat (shiftPair num den (sc ((num : ℚ) / den))).1
      (shiftPair num den (sc ((num : ℚ) / den))).2 : ℕ) : ℤ)
      = rnQ (((num : ℚ) / den) * 2 ^ (-(sc ((num : ℚ) / den)))) := by
    rw [rnNat_eq_rnQ _ _ hdp, shiftPair_val num den hd]
  unfold roundPosRat
  simp only [hsc]
  rw [if_neg]
  · rw [hm]
  · rintro ⟨hs0, hbig⟩
    apply absurd hov
    push_neg
    have hcast : ((rnNat (shiftPair num den (sc ((num : ℚ) / den))).1
        (shiftPair num den (sc ((num : ℚ) / den))).2
          * 2 ^ (sc ((num : ℚ) / den)).toNat : ℕ) : ℚ)
        = rpos ((num : ℚ) / den) := by
      unfold rpos
      rw [← hm]
      push_cast
      rw [← zpow_natCast]
      congr 2
      omega
    have h128 : (2 : ℚ) ^ (128 : ℤ) = ((2 ^ 128 : ℕ) : ℚ) := by
      rw [Nat.cast_pow, ← zpow_natCast]
      norm_num
    rw [h128, ← hcast]
    exact_mod_cast Nat.cast_le.mpr hbig

/-!
## Proof layer: operation-level semantics of the binary32 model
-/

/-- `x` is a finite nonnegative binary32 value whose exact value is `q`. -/
def F32.hasVal (x : F32) (q : ℚ) : Prop :=
  ∃ m e : ℤ, x = F32.fin m e ∧ 0 ≤ m ∧ (m : ℚ) * 2 ^ e = q

lemma roundPosRat_val {num den : ℕ} (hn : 0 < num) (hd : 0 < den) {q : ℚ}
    (hq_eq : (num : ℚ) / den = q) (hov : rpos q < 2 ^ (128 : ℤ)) :
    (roundPosRat num den).hasVal (rpos q) := by
  subst hq_eq
  refine ⟨rnQ (((num : ℚ) / den) * 2 ^ (-(sc ((num : ℚ) / den)))),
    sc ((num : ℚ) / den), roundPosRat_eq hn hd hov, ?_, ?_⟩
  · exact rnQ_nonneg (by positivity)
  · rfl

lemma roundDy_pos {d e : ℤ} (hd : 0 < d) {q : ℚ} (hq_eq : (d : ℚ) * 2 ^ e = q)
    (hov : rpos q < 2 ^ (128 : ℤ)) : (roundDy d e).hasVal (rpos q) := by
  have hd0 : ¬ d = 0 := by omega
  have hdQ : ((d.natAbs : ℕ) : ℚ) = (d : ℚ) := by
    rw [Int.cast_natAbs, abs_of_pos hd]
  have hnabs : 0 < d.natAbs := by omega
  unfold roundDy
  rw [if_neg hd0]
  simp only [if_pos hd]
  by_cases he : 0 ≤ e
  · rw [if_pos he]
    apply roundPosRat_val (by positivity) one_pos _ hov
    rw [Nat.cast_one, div_one, Nat.cast_mul, hdQ, cast_two_pow_toNat he, hq_eq]
  · rw [if_neg he]
    apply roundPosRat_val hnabs (by positivity) _ hov
    rw [hdQ, cast_two_pow_toNat (by omega : (0 : ℤ) ≤ -e), div_eq_mul_inv,
      ← zpow_neg, neg_neg, hq_eq]

lemma natToF32_hasVal {n : ℕ} (h2 : n ≤ 2 ^ 24) :
    (natToF32 n).hasVal (n : ℚ) := by
  rcases Nat.eq_zero_or_pos n with h0 | hpos
  · subst h0
    exact ⟨0, 0, rfl, le_rfl, by norm_num⟩
  · have hq : ((n : ℤ) : ℚ) * 2 ^ (0 : ℤ) = (n : ℚ) := by
      rw [zpow_zero, mul_one]
      push_cast
      ring
    have hrp : rpos (n : ℚ) = (n : ℚ) := rpos_natCast hpos h2
    have hle : (n : ℚ) ≤ 2 ^ (24 : ℤ) := by
      rw [← cast_two_pow_toNat (by norm_num : (0 : ℤ) ≤ 24)]
      exact_mod_cast h2
    have hov : rpos (n : ℚ) < 2 ^ (128 : ℤ) := by
      rw [hrp]
      calc (n : ℚ) ≤ 2 ^ (24 : ℤ) := hle
        _ < 2 ^ (128 : ℤ) := zpow_lt_zpow_right₀ one_lt_two (by omega)
    have := roundDy_pos (by exact_mod_cast hpos) hq hov
    rw [hrp] at this
    exact this

lemma hasVal_m_pos {x : F32} {q : ℚ} (h : x.hasVal q) (hq : 0 < q) :
    ∃ m e : ℤ, x = F32.fin m e ∧ 0 < m ∧ (m : ℚ) * 2 ^ e = q := by
  obtain ⟨m, e, hx, hm, hv⟩ := h
  refine ⟨m, e, hx, ?_, hv⟩
  rcases lt_or_eq_of_le hm with h' | h'
  · exact h'
  · exfalso
    rw [← h', Int.cast_zero, zero_mul] at hv
    linarith

lemma fsub_hasVal_of_lt {x y : F32} {a b : ℚ} (hx : x.hasVal a)
    (hy : y.hasVal b) (hlt : b < a) (hov : rpos (a - b) < 2 ^ (128 : ℤ)) :
    (fsub x y).hasVal (rpos (a - b)) := by
  obtain ⟨m1, e1, hx1, hm1, hv1⟩ := hx
  obtain ⟨m2, e2, hx2, hm2, hv2⟩ := hy
  subst hx1
  subst hx2
  set e := min e1 e2 with hedef
  set d : ℤ := m1 * 2 ^ (e1 - e).toNat - m2 * 2 ^ (e2 - e).toNat with hddef
  have he1 : (0 : ℤ) ≤ e1 - e := sub_nonneg.mpr (min_le_left _ _)
  have he2 : (0 : ℤ) ≤ e2 - e := sub_nonneg.mpr (min_le_right _ _)
  have hd_val : ((d : ℤ) : ℚ) * 2 ^ e = a - b := by
    rw [hddef]
    push_cast
    rw [← zpow_natCast (2 : ℚ) (e1 - e).toNat, ← zpow_natCast (2 : ℚ) (e2 - e).toNat,
      Int.toNat_of_nonneg he1, Int.toNat_of_nonneg he2, sub_mul, mul_assoc, mul_assoc,
      ← two_zpow_add, ← two_zpow_add, show e1 - e + e = e1 by ring,
      show e2 - e + e = e2 by ring, hv1, hv2]
  have hd_pos : 0 < d := by
    by_contra hcon
    push_neg at hcon
    have h1 : ((d : ℤ) : ℚ) ≤ 0 := by exact_mod_cast hcon
    have h2 : ((d : ℤ) : ℚ) * 2 ^ e ≤ 0 :=
      mul_nonpos_of_nonpos_of_nonneg h1 (le_of_lt (two_zpow_pos _))
    rw [hd_val] at h2
    linarith
  have := roundDy_pos hd_pos hd_val hov
  exact this

lemma fsub_self_val {x y : F32} {a : ℚ} (hx : x.hasVal a) (hy : y.hasVal a) :
    fsub x y = F32.fin 0 0 := by
  obtain ⟨m1, e1, hx1, hm1, hv1⟩ := hx
  obtain ⟨m2, e2, hx2, hm2, hv2⟩ := hy
  subst hx1
  subst hx2
  set e := min e1 e2 with hedef
  set d : ℤ := m1 * 2 ^ (e1 - e).toNat - m2 * 2 ^ (e2 - e).toNat with hddef
  have he1 : (0 : ℤ) ≤ e1 - e := sub_nonneg.mpr (min_le_left _ _)
  have he2 : (0 : ℤ) ≤ e2 - e := sub_nonneg.mpr (min_le_right _ _)
  have hd_val : ((d : ℤ) : ℚ) * 2 ^ e = a - a := by
    rw [hddef]
    push_cast
    rw [← zpow_natCast (2 : ℚ) (e1 - e).toNat, ← zpow_natCast (2 : ℚ) (e2 - e).toNat,
      Int.toNat_of_nonneg he1, Int.toNat_of_nonneg he2, sub_mul, mul_assoc, mul_assoc,
      ← two_zpow_add, ← two_zpow_add, show e1 - e + e = e1 by ring,
      show e2 - e + e = e2 by ring, hv1, hv2]
  have hd0 : d = 0 := by
    have h1 : ((d : ℤ) : ℚ) * 2 ^ e = 0 := by rw [hd_val]; ring
    have h2 : ((d : ℤ) : ℚ) = 0 := by
      rcases mul_eq_zero.mp h1 with h | h
      · exact h
      · exfalso
        exact ne_of_gt (two_zpow_pos e) h
    exact_mod_cast h2
  show roundDy d e = F32.fin 0 0
  rw [hd0]
  unfold roundDy
  rw [if_pos rfl]

lemma fmul_hasVal {x y : F32} {a b : ℚ} (hx : x.hasVal a) (hy : y.hasVal b)
    (ha : 0 < a) (hb : 0 < b) (hov : rpos (a * b) < 2 ^ (128 : ℤ)) :
    (fmul x y).hasVal (rpos (a * b)) := by
  obtain ⟨m1, e1, hx1, hm1, hv1⟩ := hasVal_m_pos hx ha
  obtain ⟨m2, e2, hx2, hm2, hv2⟩ := hasVal_m_pos hy hb
  subst hx1
  subst hx2
  have hd_pos : 0 < m1 * m2 := mul_pos hm1 hm2
  have hd_val : ((m1 * m2 : ℤ) : ℚ) * 2 ^ (e1 + e2) = a * b := by
    push_cast
    rw [two_zpow_add, ← hv1, ← hv2]
    ring
  exact roundDy_pos hd_pos hd_val hov

lemma fdiv_hasVal {x y : F32} {a b : ℚ} (hx : x.hasVal a) (hy : y.hasVal b)
    (ha : 0 < a) (hb : 0 < b) (hov : rpos (a / b) < 2 ^ (128 : ℤ)) :
    (fdiv x y).hasVal (rpos (a / b)) := by
  obtain ⟨m1, e1, hx1, hm1, hv1⟩ := hasVal_m_pos hx ha
  obtain ⟨m2, e2, hx2, hm2, hv2⟩ := hasVal_m_pos hy hb
  subst hx1
  subst hx2
  have habs1 : ((m1.natAbs : ℕ) : ℚ) = (m1 : ℚ) := by
    rw [Int.cast_natAbs, abs_of_pos hm1]
  have habs2 : ((m2.natAbs : ℕ) : ℚ) = (m2 : ℚ) := by
    rw [Int.cast_natAbs, abs_of_pos hm2]
  have hm1Q : (0 : ℚ) < (m1 : ℚ) := by exact_mod_cast hm1
  have hm2Q : (0 : ℚ) < (m2 : ℚ) := by exact_mod_cast hm2
  have hred : fdiv (F32.fin m1 e1) (F32.fin m2 e2)
      = (if m2 = 0 then
          if m1 = 0 then F32.nan else if 0 < m1 then F32.pinf else F32.ninf
        else if m1 = 0 then F32.fin 0 0
        else if (0 < m1) = (0 < m2) then
          roundPosRat
            (if 0 ≤ e1 - e2 then (m1.natAbs * 2 ^ (e1 - e2).toNat, m2.natAbs)
             else (m1.natAbs, m2.natAbs * 2 ^ (-(e1 - e2)).toNat)).1
            (if 0 ≤ e1 - e2 then (m1.natAbs * 2 ^ (e1 - e2).toNat, m2.natAbs)
             else (m1.natAbs, m2.natAbs * 2 ^ (-(e1 - e2)).toNat)).2
        else
          (roundPosRat
            (if 0 ≤ e1 - e2 then (m1.natAbs * 2 ^ (e1 - e2).toNat, m2.natAbs)
             else (m1.natAbs, m2.natAbs * 2 ^ (-(e1 - e2)).toNat)).1
            (if 0 ≤ e1 - e2 then (m1.natAbs * 2 ^ (e1 - e2).toNat, m2.natAbs)
             else (m1.natAbs, m2.natAbs * 2 ^ (-(e1 - e2)).toNat)).2).neg) := rfl
  rw [hred, if_neg (by omega : ¬ m2 = 0), if_neg (by omega : ¬ m1 = 0),
    if_pos (by simp [hm1, hm2] : (0 < m1) = (0 < m2))]
  by_cases he : 0 ≤ e1 - e2
  · rw [if_pos he]
    apply roundPosRat_val (by positivity) (by omega) _ hov
    rw [Nat.cast_mul, habs1, habs2, cast_two_pow_toNat he]
    have key : (2 : ℚ) ^ (e1 - e2) * 2 ^ e2 = 2 ^ e1 := by
      rw [← two_zpow_add, sub_add_cancel]
    rw [div_eq_div_iff (by positivity) (by positivity), ← hv1, ← hv2]
    calc (m1 : ℚ) * 2 ^ (e1 - e2) * ((m2 : ℚ) * 2 ^ e2)
        = (m1 : ℚ) * (m2 : ℚ) * ((2 : ℚ) ^ (e1 - e2) * 2 ^ e2) := by ring
      _ = (m1 : ℚ) * (m2 : ℚ) * 2 ^ e1 := by rw [key]
      _ = (m1 : ℚ) * 2 ^ e1 * (m2 : ℚ) := by ring
  · rw [if_neg he]
    apply roundPosRat_val (by omega) (by positivity) _ hov
    rw [Nat.cast_mul, habs1, habs2, cast_two_pow_toNat (by omega : (0 : ℤ) ≤ -(e1 - e2))]
    have key : (2 : ℚ) ^ (-(e1 - e2)) * 2 ^ e1 = 2 ^ e2 := by
      rw [← two_zpow_add]
      congr 1
      ring
    rw [div_eq_div_iff (by positivity) (by positivity), ← hv1, ← hv2]
    calc (m1 : ℚ) * ((m2 : ℚ) * 2 ^ e2)
        = (m1 : ℚ) * (m2 : ℚ) * 2 ^ e2 := by ring
      _ = (m1 : ℚ) * (m2 : ℚ) * ((2 : ℚ) ^ (-(e1 - e2)) * 2 ^ e1) := by rw [key]
      _ = (m1 : ℚ) * 2 ^ e1 * ((m2 : ℚ) * 2 ^ (-(e1 - e2))) := by ring

lemma f32ToUsize_eq_floor {x : F32} {q : ℚ} (h : x.hasVal q) (hq : 0 < q)
    (hsmall : q ≤ ((2 ^ 64 - 1 : ℕ) : ℚ)) : f32ToUsize x = ⌊q⌋₊ := by
  obtain ⟨m, e, hx, hm, hv⟩ := hasVal_m_pos h hq
  subst hx
  have hmle : ¬ m ≤ 0 := by omega
  have hmQ : ((m.toNat : ℕ) : ℚ) = (m : ℚ) := by
    exact_mod_cast Int.toNat_of_nonneg (le_of_lt hm)
  show (if m ≤ 0 then 0 else
      min (if 0 ≤ e then m.toNat * 2 ^ e.toNat else m.toNat / 2 ^ (-e).toNat)
        (2 ^ 64 - 1)) = ⌊q⌋₊
  rw [if_neg hmle]
  by_cases he : 0 ≤ e
  · rw [if_pos he]
    have hvq : ((m.toNat * 2 ^ e.toNat : ℕ) : ℚ) = q := by
      rw [Nat.cast_mul, hmQ, cast_two_pow_toNat he, hv]
    have hfl : ⌊q⌋₊ = m.toNat * 2 ^ e.toNat := by
      rw [← hvq, Nat.floor_natCast]
    rw [hfl]
    apply min_eq_left
    exact Nat.cast_le.mp (le_trans (le_of_eq hvq) hsmall)
  · rw [if_neg he]
    have hq_eq : q = ((m.toNat : ℕ) : ℚ) / ((2 ^ (-e).toNat : ℕ) : ℚ) := by
      rw [hmQ, cast_two_pow_toNat (by omega : (0 : ℤ) ≤ -e), ← hv,
        div_eq_mul_inv, ← zpow_neg, neg_neg]
    have hfl : ⌊q⌋₊ = m.toNat / 2 ^ (-e).toNat := by
      rw [hq_eq, Nat.floor_div_nat, Nat.floor_natCast]
    rw [hfl]
    apply min_eq_left
    have h1 : (⌊q⌋₊ : ℚ) ≤ q := Nat.floor_le (le_of_lt hq)
    have h3 := Nat.cast_le.mp (le_trans h1 hsmall)
    rw [hfl] at h3
    exact h3

lemma cast_pow24 : ((2 ^ 24 : ℕ) : ℚ) = (2 : ℚ) ^ (24 : ℤ) := by
  rw [← cast_two_pow_toNat (by norm_num : (0 : ℤ) ≤ 24),
    show (24 : ℤ).toNat = 24 from rfl]

/-- Subtracting two exactly representable naturals is exact. -/
lemma fsub_nat_hasVal {a b : ℕ} (hb : b < a) (ha : a ≤ 2 ^ 24) :
    (fsub (natToF32 a) (natToF32 b)).hasVal ((a - b : ℕ) : ℚ) := by
  have hxa := natToF32_hasVal ha
  have hxb := natToF32_hasVal (show b ≤ 2 ^ 24 by omega)
  have hd : (a : ℚ) - (b : ℚ) = ((a - b : ℕ) : ℚ) := by
    rw [Nat.cast_sub (le_of_lt hb)]
  have hlt : (b : ℚ) < (a : ℚ) := Nat.cast_lt.mpr hb
  have hrp : rpos ((a - b : ℕ) : ℚ) = ((a - b : ℕ) : ℚ) :=
    rpos_natCast (by omega) (by omega)
  have hov : rpos ((a : ℚ) - (b : ℚ)) < 2 ^ (128 : ℤ) := by
    rw [hd, hrp]
    calc ((a - b : ℕ) : ℚ) ≤ ((2 ^ 24 : ℕ) : ℚ) := Nat.cast_le.mpr (by omega)
      _ = 2 ^ (24 : ℤ) := cast_pow24
      _ < 2 ^ (128 : ℤ) := zpow_lt_zpow_right₀ one_lt_two (by omega)
  have hres := fsub_hasVal_of_lt hxa hxb hlt hov
  rw [hd, hrp] at hres
  exact hres

lemma rpos_one_sub : rpos (1 - 2 ^ (-24 : ℤ)) = 1 - 2 ^ (-24 : ℤ) := by
  have hone : ((2 ^ 24 - 1 : ℕ) : ℚ) * 2 ^ (-24 : ℤ) = 1 - 2 ^ (-24 : ℤ) := by
    rw [Nat.cast_sub (by norm_num : 1 ≤ 2 ^ 24), cast_pow24, sub_mul,
      Nat.cast_one, one_mul, ← two_zpow_add, show (24 : ℤ) + -24 = 0 by ring,
      zpow_zero]
  rw [← hone]
  exact rpos_exact (by norm_num) (by norm_num) (by norm_num)

lemma rpos_small : rpos (2 ^ (-24 : ℤ)) = 2 ^ (-24 : ℤ) := by
  have h := @rpos_exact 1 (-24) one_pos (by norm_num) (by norm_num)
  rw [Nat.cast_one, one_mul] at h
  exact h

/-- Interior characterization of `get_bucket` for ranges inside
`[0, 2^24]`: the index is the floor of the correctly rounded binary32
computation, that value stays strictly below `buckets`, and the rounded
ratio is positive. -/
lemma get_bucket_interior {mn mx B v : ℕ} (h1 : mn < mx) (h2 : 0 < B)
    (h3 : B < mx - mn) (h24 : mx ≤ 2 ^ 24) (hv1 : mn < v) (hv2 : v < mx) :
    LinearBuckets.get_bucket ⟨mn, mx, B⟩ v
      = ⌊rpos (rpos (((v - mn : ℕ) : ℚ) / ((mx - mn : ℕ) : ℚ)) * (B : ℚ))⌋₊
    ∧ rpos (rpos (((v - mn : ℕ) : ℚ) / ((mx - mn : ℕ) : ℚ)) * (B : ℚ)) < (B : ℚ)
    ∧ 0 < rpos (((v - mn : ℕ) : ℚ) / ((mx - mn : ℕ) : ℚ)) := by
  have hNnat : 0 < v - mn := by omega
  have hDnat : 0 < mx - mn := by omega
  have hND : v - mn < mx - mn := by omega
  have hD24 : mx - mn ≤ 2 ^ 24 := by omega
  have hB24 : B ≤ 2 ^ 24 := by omega
  have hNQ : (0 : ℚ) < ((v - mn : ℕ) : ℚ) := by exact_mod_cast hNnat
  have hDQ : (0 : ℚ) < ((mx - mn : ℕ) : ℚ) := by exact_mod_cast hDnat
  have hBQ : (0 : ℚ) < (B : ℚ) := by exact_mod_cast h2
  have hD24Q : ((mx - mn : ℕ) : ℚ) ≤ 2 ^ (24 : ℤ) := by
    rw [← cast_pow24]
    exact Nat.cast_le.mpr hD24
  have hB24Q : (B : ℚ) ≤ 2 ^ (24 : ℤ) := by
    rw [← cast_pow24]
    exact Nat.cast_le.mpr hB24
  have hr_pos : (0 : ℚ) < ((v - mn : ℕ) : ℚ) / ((mx - mn : ℕ) : ℚ) := by positivity
  have hr_ge : (2 : ℚ) ^ (-24 : ℤ) ≤ ((v - mn : ℕ) : ℚ) / ((mx - mn : ℕ) : ℚ) := by
    have h24pos : (0 : ℚ) < 2 ^ (24 : ℤ) := two_zpow_pos _
    rw [show ((-24 : ℤ)) = -(24 : ℤ) from rfl, zpow_neg, le_div_iff₀ hDQ]
    have ha : ((2 : ℚ) ^ (24 : ℤ))⁻¹ * ((mx - mn : ℕ) : ℚ)
        ≤ ((2 : ℚ) ^ (24 : ℤ))⁻¹ * 2 ^ (24 : ℤ) :=
      mul_le_mul_of_nonneg_left hD24Q (by positivity)
    have hb : ((2 : ℚ) ^ (24 : ℤ))⁻¹ * 2 ^ (24 : ℤ) = 1 :=
      inv_mul_cancel₀ (ne_of_gt h24pos)
    have hc : (1 : ℚ) ≤ ((v - mn : ℕ) : ℚ) := by exact_mod_cast hNnat
    linarith
  have hr_le : ((v - mn : ℕ) : ℚ) / ((mx - mn : ℕ) : ℚ) ≤ 1 - 2 ^ (-24 : ℤ) := by
    rw [div_le_iff₀ hDQ]
    have hND' : ((v - mn : ℕ) : ℚ) + 1 ≤ ((mx - mn : ℕ) : ℚ) := by
      exact_mod_cast hND
    have hsm : ((mx - mn : ℕ) : ℚ) * 2 ^ (-24 : ℤ) ≤ 1 := by
      have hmul := mul_le_mul_of_nonneg_right hD24Q (le_of_lt (two_zpow_pos (-24)))
      rw [← two_zpow_add, show (24 : ℤ) + -24 = 0 by ring, zpow_zero] at hmul
      exact hmul
    have hexp : (1 - 2 ^ (-24 : ℤ)) * ((mx - mn : ℕ) : ℚ)
        = ((mx - mn : ℕ) : ℚ) - ((mx - mn : ℕ) : ℚ) * 2 ^ (-24 : ℤ) := by ring
    rw [hexp]
    linarith
  have hq1_le : rpos (((v - mn : ℕ) : ℚ) / ((mx - mn : ℕ) : ℚ)) ≤ 1 - 2 ^ (-24 : ℤ) := by
    calc rpos (((v - mn : ℕ) : ℚ) / ((mx - mn : ℕ) : ℚ))
        ≤ rpos (1 - 2 ^ (-24 : ℤ)) := rpos_mono hr_pos hr_le
      _ = 1 - 2 ^ (-24 : ℤ) := rpos_one_sub
  have hq1_ge : (2 : ℚ) ^ (-24 : ℤ) ≤ rpos (((v - mn : ℕ) : ℚ) / ((mx - mn : ℕ) : ℚ)) := by
    calc (2 : ℚ) ^ (-24 : ℤ) = rpos (2 ^ (-24 : ℤ)) := rpos_small.symm
      _ ≤ rpos (((v - mn : ℕ) : ℚ) / ((mx - mn : ℕ) : ℚ)) :=
          rpos_mono (two_zpow_pos _) hr_ge
  have hq1_pos : 0 < rpos (((v - mn : ℕ) : ℚ) / ((mx - mn : ℕ) : ℚ)) :=
    lt_of_lt_of_le (two_zpow_pos _) hq1_ge
  have hbig : (1 : ℚ) ≤ 2 ^ (128 : ℤ) := by
    calc (1 : ℚ) = 2 ^ (0 : ℤ) := (zpow_zero 2).symm
      _ ≤ 2 ^ (128 : ℤ) := zpow_le_zpow_right₀ one_le_two (by omega)
  have hov_r : rpos (((v - mn : ℕ) : ℚ) / ((mx - mn : ℕ) : ℚ)) < 2 ^ (128 : ℤ) := by
    have h2' : (0 : ℚ) < 2 ^ (-24 : ℤ) := two_zpow_pos _
    linarith
  have hnum := fsub_nat_hasVal hv1 (by omega : v ≤ 2 ^ 24)
  have hden := fsub_nat_hasVal h1 h24
  have hq1_val := fdiv_hasVal hnum hden hNQ hDQ hov_r
  have hBfl := natToF32_hasVal hB24
  have hx_pos : 0 < rpos (((v - mn : ℕ) : ℚ) / ((mx - mn : ℕ) : ℚ)) * (B : ℚ) :=
    mul_pos hq1_pos hBQ
  have hx_le : rpos (((v - mn : ℕ) : ℚ) / ((mx - mn : ℕ) : ℚ)) * (B : ℚ)
      ≤ (B : ℚ) - (B : ℚ) * 2 ^ (-24 : ℤ) := by
    calc rpos (((v - mn : ℕ) : ℚ) / ((mx - mn : ℕ) : ℚ)) * (B : ℚ)
        ≤ (1 - 2 ^ (-24 : ℤ)) * (B : ℚ) :=
          mul_le_mul_of_nonneg_right hq1_le (le_of_lt hBQ)
      _ = (B : ℚ) - (B : ℚ) * 2 ^ (-24 : ℤ) := by ring
  have htop : rpos (rpos (((v - mn : ℕ) : ℚ) / ((mx - mn : ℕ) : ℚ)) * (B : ℚ)) < (B : ℚ) :=
    rpos_topBound h2 hB24Q hx_pos hx_le
  have hov_x : rpos (rpos (((v - mn : ℕ) : ℚ) / ((mx - mn : ℕ) : ℚ)) * (B : ℚ))
      < 2 ^ (128 : ℤ) := by
    have h2' := zpow_le_zpow_right₀ (one_le_two : (1 : ℚ) ≤ 2) (by omega : (24 : ℤ) ≤ 128)
    linarith
  have hres := fmul_hasVal hq1_val hBfl hq1_pos hBQ hov_x
  have hx_ge : (2 : ℚ) ^ (-126 : ℤ) ≤
      rpos (((v - mn : ℕ) : ℚ) / ((mx - mn : ℕ) : ℚ)) * (B : ℚ) := by
    have hx1 : rpos (((v - mn : ℕ) : ℚ) / ((mx - mn : ℕ) : ℚ))
        ≤ rpos (((v - mn : ℕ) : ℚ) / ((mx - mn : ℕ) : ℚ)) * (B : ℚ) :=
      le_mul_of_one_le_right (le_of_lt hq1_pos) (by exact_mod_cast h2)
    have hx2 : (2 : ℚ) ^ (-126 : ℤ) ≤ 2 ^ (-24 : ℤ) :=
      zpow_le_zpow_right₀ one_le_two (by omega)
    linarith
  have hresp : 0 < rpos (rpos (((v - mn : ℕ) : ℚ) / ((mx - mn : ℕ) : ℚ)) * (B : ℚ)) :=
    rpos_pos hx_ge
  have hsmall : rpos (rpos (((v - mn : ℕ) : ℚ) / ((mx - mn : ℕ) : ℚ)) * (B : ℚ))
      ≤ ((2 ^ 64 - 1 : ℕ) : ℚ) := by
    have hc1 : ((2 ^ 24 : ℕ) : ℚ) ≤ ((2 ^ 64 - 1 : ℕ) : ℚ) := Nat.cast_le.mpr (by norm_num)
    rw [cast_pow24] at hc1
    linarith
  have hidx := f32ToUsize_eq_floor hres hresp hsmall
  refine ⟨?_, htop, hq1_pos⟩
  have hred : LinearBuckets.get_bucket ⟨mn, mx, B⟩ v
      = if v ≤ mn then 0 else if mx ≤ v then B - 1
        else f32ToUsize (fmul (fdiv (fsub (natToF32 v) (natToF32 mn))
          (fsub (natToF32 mx) (natToF32 mn))) (natToF32 B)) := rfl
  rw [hred, if_neg (by omega : ¬ v ≤ mn), if_neg (by omega : ¬ mx ≤ v), hidx]

/-- With `max ≤ 2^24`, every bucket index stays strictly below
`buckets`. -/
lemma get_bucket_lt {mn mx B : ℕ} (h1 : mn < mx) (h2 : 0 < B)
    (h3 : B < mx - mn) (h24 : mx ≤ 2 ^ 24) (v : ℕ) :
    LinearBuckets.get_bucket ⟨mn, mx, B⟩ v < B := by
  have hred : LinearBuckets.get_bucket ⟨mn, mx, B⟩ v
      = if v ≤ mn then 0 else if mx ≤ v then B - 1
        else f32ToUsize (fmul (fdiv (fsub (natToF32 v) (natToF32 mn))
          (fsub (natToF32 mx) (natToF32 mn))) (natToF32 B)) := rfl
  by_cases hv1 : v ≤ mn
  · rw [hred, if_pos hv1]
    exact h2
  · by_cases hv2 : mx ≤ v
    · rw [hred, if_neg hv1, if_pos hv2]
      omega
    · obtain ⟨heq, hlt, hq1⟩ :=
        get_bucket_interior h1 h2 h3 h24 (show mn < v by omega) (show v < mx by omega)
      rw [heq]
      have hnn : (0 : ℚ) ≤ rpos (rpos (((v - mn : ℕ) : ℚ) / ((mx - mn : ℕ) : ℚ)) * (B : ℚ)) :=
        rpos_nonneg (mul_nonneg (le_of_lt hq1) (by positivity))
      exact (Nat.floor_lt hnn).mpr hlt

/-- With `max ≤ 2^24`, `get_bucket` is monotone on `[min, max]`. -/
lemma get_bucket_mono {mn mx B a b : ℕ} (h1 : mn < mx) (h2 : 0 < B)
    (h3 : B < mx - mn) (h24 : mx ≤ 2 ^ 24) (hab : a ≤ b) (hbmx : b ≤ mx) :
    LinearBuckets.get_bucket ⟨mn, mx, B⟩ a ≤ LinearBuckets.get_bucket ⟨mn, mx, B⟩ b := by
  have hreda : LinearBuckets.get_bucket ⟨mn, mx, B⟩ a
      = if a ≤ mn then 0 else if mx ≤ a then B - 1
        else f32ToUsize (fmul (fdiv (fsub (natToF32 a) (natToF32 mn))
          (fsub (natToF32 mx) (natToF32 mn))) (natToF32 B)) := rfl
  by_cases ha1 : a ≤ mn
  · rw [hreda, if_pos ha1]
    exact Nat.zero_le _
  · by_cases hb2 : mx ≤ b
    · have hredb : LinearBuckets.get_bucket ⟨mn, mx, B⟩ b
          = if b ≤ mn then 0 else if mx ≤ b then B - 1
            else f32ToUsize (fmul (fdiv (fsub (natToF32 b) (natToF32 mn))
              (fsub (natToF32 mx) (natToF32 mn))) (natToF32 B)) := rfl
      rw [hredb, if_neg (by omega : ¬ b ≤ mn), if_pos hb2]
      have := get_bucket_lt h1 h2 h3 h24 a
      omega
    · have hb2' : b < mx := by omega
      obtain ⟨heqa, hlta, hq1a⟩ :=
        get_bucket_interior h1 h2 h3 h24 (show mn < a by omega) (show a < mx by omega)
      obtain ⟨heqb, hltb, hq1b⟩ :=
        get_bucket_interior h1 h2 h3 h24 (show mn < b by omega) hb2'
      rw [heqa, heqb]
      apply Nat.floor_le_floor
      have hDQ : (0 : ℚ) < ((mx - mn : ℕ) : ℚ) := by
        exact_mod_cast (show 0 < mx - mn by omega)
      have hBQ : (0 : ℚ) < (B : ℚ) := by exact_mod_cast h2
      have hra_pos : (0 : ℚ) < ((a - mn : ℕ) : ℚ) / ((mx - mn : ℕ) : ℚ) := by
        have hn : (0 : ℚ) < ((a - mn : ℕ) : ℚ) := by
          exact_mod_cast (show 0 < a - mn by omega)
        positivity
      have hcast : ((a - mn : ℕ) : ℚ) ≤ ((b - mn : ℕ) : ℚ) :=
        Nat.cast_le.mpr (by omega)
      have hrr : ((a - mn : ℕ) : ℚ) / ((mx - mn : ℕ) : ℚ)
          ≤ ((b - mn : ℕ) : ℚ) / ((mx - mn : ℕ) : ℚ) := by
        rw [div_le_div_iff hDQ hDQ]
        exact mul_le_mul_of_nonneg_right hcast (le_of_lt hDQ)
      have hmul : rpos (((a - mn : ℕ) : ℚ) / ((mx - mn : ℕ) : ℚ)) * (B : ℚ)
          ≤ rpos (((b - mn : ℕ) : ℚ) / ((mx - mn : ℕ) : ℚ)) * (B : ℚ) :=
        mul_le_mul_of_nonneg_right (rpos_mono hra_pos hrr) (le_of_lt hBQ)
      have hxa_pos : 0 < rpos (((a - mn : ℕ) : ℚ) / ((mx - mn : ℕ) : ℚ)) * (B : ℚ) :=
        mul_pos hq1a hBQ
      exact rpos_mono hxa_pos hmul

/-!
## Proof layer: the growable-buffer utilities
-/

lemma set_append_len (A B : List γ) (x : γ) :
    (A ++ B).set A.length x = A ++ B.set 0 x := by
  induction A with
  | nil => rfl
  | cons a t ih =>
      show (a :: (t ++ B)).set (t.length + 1) x = a :: (t ++ B.set 0 x)
      rw [List.set_cons_succ, ih]

lemma set_replicate_head (k : ℕ) (x : α) :
    (List.replicate (k + 1) (none : Option α)).set 0 (some x)
      = some x :: List.replicate k none := by
  rw [List.replicate_succ]
  rfl

lemma replicate_mid (j : ℕ) (x : γ) (tail : List γ) :
    List.replicate j x ++ x :: tail = List.replicate (j + 1) x ++ tail := by
  induction j with
  | zero => rfl
  | succ n ih =>
      show x :: (List.replicate n x ++ x :: tail) = x :: (List.replicate (n + 1) x ++ tail)
      rw [ih]

lemma fillLoop_ok (val : α) : ∀ rem j b L, rem ≤ b →
    fillLoop val ⟨List.replicate j (some val) ++ List.replicate rem (none : Option α), L⟩
        j rem b
      = Except.ok ((⟨List.replicate (j + rem) (some val), L⟩ : RawVec α), b - rem) := by
  intro rem
  induction rem with
  | zero =>
    intro j b L h
    rw [show List.replicate 0 (none : Option α) = [] from rfl, List.append_nil]
    rfl
  | succ r ih =>
    intro j b L h
    obtain ⟨b', rfl⟩ : ∃ b', b = b' + 1 := ⟨b - 1, by omega⟩
    have hset : (List.replicate j (some val)
          ++ List.replicate (r + 1) (none : Option α)).set j (some val)
        = List.replicate (j + 1) (some val) ++ List.replicate r none := by
      have hs := set_append_len (List.replicate j (some val))
        (List.replicate (r + 1) (none : Option α)) (some val)
      rw [List.length_replicate] at hs
      rw [hs, set_replicate_head, List.replicate_succ', List.append_assoc]
      rfl
    have hstep : fillLoop val
          ⟨List.replicate j (some val) ++ List.replicate (r + 1) (none : Option α), L⟩
          j (r + 1) (b' + 1)
        = fillLoop val
          ⟨List.replicate (j + 1) (some val) ++ List.replicate r none, L⟩ (j + 1) r b' := by
      show fillLoop val
          ⟨(List.replicate j (some val)
            ++ List.replicate (r + 1) (none : Option α)).set j (some val), L⟩
          (j + 1) r b' = _
      rw [hset]
    rw [hstep, ih (j + 1) b' L (by omega),
      show j + 1 + r = j + (r + 1) by omega, show b' - r = b' + 1 - (r + 1) by omega]

/-- Successful run of `vec_with_size`: with enough clone budget the result
is a fully initialized buffer of exactly `size` copies of the value. -/
lemma vec_with_size_ok (size : ℕ) (val : α) (b : ℕ) (h : size ≤ b) :
    vec_with_size size val b = Except.ok (RawVec.ofList (List.replicate size val)) := by
  have h0 := fillLoop_ok val size 0 b size h
  rw [show List.replicate 0 (some val) = ([] : List (Option α)) from rfl,
    List.nil_append] at h0
  have hlist : (⟨List.replicate (0 + size) (some val), size⟩ : RawVec α)
      = RawVec.ofList (List.replicate size val) := by
    unfold RawVec.ofList
    rw [List.map_replicate, List.length_replicate, Nat.zero_add]
  unfold vec_with_size
  show (match fillLoop val (⟨List.replicate size (none : Option α), size⟩ : RawVec α)
      0 size b with
    | Except.error v => Except.error v
    | Except.ok (v, _) => Except.ok v) = _
  rw [h0]
  show Except.ok (⟨List.replicate (0 + size) (some val), size⟩ : RawVec α) = _
  rw [hlist]

lemma writeLoop_ok (val : α) (P : List (Option α)) : ∀ rem j b, rem ≤ b →
    writeLoop val P.length
        ⟨P ++ (List.replicate j (some val) ++ List.replicate (rem + 1) (none : Option α)),
          P.length + j⟩ (j + 1) rem b
      = Except.ok ((⟨P ++ (List.replicate (j + rem) (some val)
          ++ List.replicate 1 (none : Option α)), P.length + (j + rem)⟩ : RawVec α),
          b - rem) := by
  intro rem
  induction rem with
  | zero =>
    intro j b h
    rfl
  | succ r ih =>
    intro j b h
    obtain ⟨b', rfl⟩ : ∃ b', b = b' + 1 := ⟨b - 1, by omega⟩
    have hset : (P ++ (List.replicate j (some val)
          ++ List.replicate (r + 1 + 1) (none : Option α))).set (P.length + j) (some val)
        = P ++ (List.replicate (j + 1) (some val) ++ List.replicate (r + 1) none) := by
      rw [← List.append_assoc]
      have hs := set_append_len (P ++ List.replicate j (some val))
        (List.replicate (r + 1 + 1) (none : Option α)) (some val)
      rw [List.length_append, List.length_replicate] at hs
      rw [hs, set_replicate_head, List.append_assoc]
      congr 1
      exact replicate_mid j (some val) (List.replicate (r + 1) none)
    have hstep : writeLoop val P.length
          ⟨P ++ (List.replicate j (some val)
            ++ List.replicate (r + 1 + 1) (none : Option α)), P.length + j⟩
          (j + 1) (r + 1) (b' + 1)
        = writeLoop val P.length
          ⟨P ++ (List.replicate (j + 1) (some val) ++ List.replicate (r + 1) none),
            P.length + (j + 1)⟩ (j + 2) r b' := by
      show writeLoop val P.length
          ⟨(P ++ (List.replicate j (some val)
            ++ List.replicate (r + 1 + 1) (none : Option α))).set (P.length + (j + 1) - 1)
              (some val), P.length + (j + 1)⟩ (j + 1 + 1) r b' = _
      rw [show P.length + (j + 1) - 1 = P.length + j by omega, hset]
    rw [hstep, ih (j + 1) b' (by omega),
      show j + 1 + r = j + (r + 1) by omega, show b' - r = b' + 1 - (r + 1) by omega]

/-- Successful run of the `vec_resize` fill: starting from the reserved
buffer, the loop plus the final move yield the grown buffer. -/
lemma vec_resize_noop (l : List α) (min_len : ℕ) (val : α) (b : ℕ)
    (h : min_len ≤ l.length) :
    vec_resize (RawVec.ofList l) min_len val b = Except.ok (RawVec.ofList l) := by
  unfold vec_resize
  rw [if_pos (show min_len ≤ (RawVec.ofList l).len from h)]

lemma vec_resize_grow (l : List α) (min_len : ℕ) (val : α) (b : ℕ)
    (hlen : l.length < min_len) (hb : min_len - l.length - 1 ≤ b) :
    vec_resize (RawVec.ofList l) min_len val b
      = Except.ok (RawVec.ofList (l ++ List.replicate (min_len - l.length) val)) := by
  have hstart := writeLoop_ok val (l.map some) (min_len - l.length - 1) 0 b hb
  rw [List.length_map, show min_len - l.length - 1 + 1 = min_len - l.length by omega,
    show List.replicate 0 (some val) = ([] : List (Option α)) from rfl,
    List.nil_append] at hstart
  simp only [Nat.add_zero, Nat.zero_add] at hstart
  unfold vec_resize
  rw [if_neg (show ¬ min_len ≤ (RawVec.ofList l).len by
    show ¬ min_len ≤ l.length
    omega)]
  show (match writeLoop val l.length
      ⟨List.map some l ++ List.replicate
        (l.length + (min_len - l.length) - (List.map some l).length) (none : Option α),
        l.length⟩ 1 (min_len - l.length - 1) b with
    | Except.error v => Except.error v
    | Except.ok (v, _) =>
        Except.ok (⟨v.cells.set (l.length + (min_len - l.length) - 1) (some val),
          l.length + (min_len - l.length)⟩ : RawVec α))
    = Except.ok (RawVec.ofList (l ++ List.replicate (min_len - l.length) val))
  rw [show l.length + (min_len - l.length) - (List.map some l).length = min_len - l.length by
    rw [List.length_map]; omega]
  rw [hstart]
  show Except.ok _ = _
  congr 1
  have hidx : l.length + (min_len - l.length) - 1 = l.length + (min_len - l.length - 1) := by
    omega
  have hfin : (l.map some ++ (List.replicate (min_len - l.length - 1) (some val)
        ++ List.replicate 1 (none : Option α))).set
          (l.length + (min_len - l.length) - 1) (some val)
      = (l ++ List.replicate (min_len - l.length) val).map some := by
    rw [hidx, ← List.append_assoc]
    have hs := set_append_len (l.map some ++ List.replicate (min_len - l.length - 1) (some val))
      (List.replicate 1 (none : Option α)) (some val)
    rw [List.length_append, List.length_map, List.length_replicate] at hs
    rw [hs, show (List.replicate 1 (none : Option α)).set 0 (some val)
        = [some val] from rfl]
    rw [List.map_append, List.map_replicate, List.append_assoc]
    congr 1
    rw [← List.replicate_succ', show min_len - l.length - 1 + 1 = min_len - l.length by omega]
  rw [hfin]
  unfold RawVec.ofList
  rw [List.length_append, List.length_replicate]

/-!
## Claims
-/

lemma new_inv {mn mx b : ℕ} {lb : LinearBuckets}
    (h : LinearBuckets.new mn mx b = some lb) :
    lb = ⟨mn, mx, b⟩ ∧ mn < mx ∧ 0 < b ∧ b < mx - mn := by
  unfold LinearBuckets.new at h
  split_ifs at h with h1 h2 h3
  · injection h with h'
    exact ⟨h'.symm, h1, h2, h3⟩

/-- C1 (counterexample): for the constructed configuration
`LinearBuckets::new(0, 2^25, 10)` the interior value `2^25 - 1` is mapped
to bucket index 10, which escapes `[0, buckets - 1] = [0, 9]`: binary32
rounding sends `33554431` to `2^25`, making the interpolated fraction
exactly `1.0`. -/
theorem C1_counterexample :
    LinearBuckets.new 0 33554432 10 = some ⟨0, 33554432, 10⟩
    ∧ LinearBuckets.get_bucket ⟨0, 33554432, 10⟩ 33554431 = 10
    ∧ ¬ (LinearBuckets.get_bucket ⟨0, 33554432, 10⟩ 33554431
          ≤ (⟨0, 33554432, 10⟩ : LinearBuckets).buckets - 1) := by
  refine ⟨by decide, by decide, by decide⟩

/-- C1 (amended): for every `LinearBuckets` constructed with
`min < max`, `0 < buckets < max - min`, and additionally `max ≤ 2^24`
(so that all quantities are exactly representable in binary32),
`get_bucket` maps every input to an index in `[0, buckets - 1]`;
`get_bucket` is total (never fails). -/
theorem C1_amended (mn mx b : ℕ) (lb : LinearBuckets)
    (h : LinearBuckets.new mn mx b = some lb) (h24 : lb.max ≤ 2 ^ 24) (v : ℕ) :
    lb.get_bucket v ≤ lb.buckets - 1 := by
  obtain ⟨rfl, h1, h2, h3⟩ := new_inv h
  have h24' : mx ≤ 2 ^ 24 := h24
  have hlt := get_bucket_lt h1 h2 h3 h24' v
  show LinearBuckets.get_bucket ⟨mn, mx, b⟩ v ≤ b - 1
  omega

/-- C1 (witness). -/
theorem C1_witness :
    LinearBuckets.get_bucket ⟨0, 100, 10⟩ 99
      ≤ (⟨0, 100, 10⟩ : LinearBuckets).buckets - 1 :=
  C1_amended 0 100 10 ⟨0, 100, 10⟩ (by decide) (by decide) 99

/-- C3: for every constructed `LinearBuckets`, every value `≤ min` maps
to bucket 0 and every value `≥ max` maps to bucket `buckets - 1`. -/
theorem C3_boundary_clamps (mn mx b : ℕ) (lb : LinearBuckets)
    (h : LinearBuckets.new mn mx b = some lb) (v : ℕ) :
    (v ≤ lb.min → lb.get_bucket v = 0)
    ∧ (lb.max ≤ v → lb.get_bucket v = lb.buckets - 1) := by
  obtain ⟨rfl, h1, h2, h3⟩ := new_inv h
  have hred : LinearBuckets.get_bucket ⟨mn, mx, b⟩ v
      = if v ≤ mn then 0 else if mx ≤ v then b - 1
        else f32ToUsize (fmul (fdiv (fsub (natToF32 v) (natToF32 mn))
          (fsub (natToF32 mx) (natToF32 mn))) (natToF32 b)) := rfl
  constructor
  · intro hv
    rw [hred, if_pos hv]
  · intro hv
    have hv' : mx ≤ v := hv
    rw [hred, if_neg (by omega : ¬ v ≤ mn), if_pos hv']

/-- C3 (witness). -/
theorem C3_witness :
    (LinearBuckets.get_bucket ⟨5, 105, 10⟩ 3 = 0)
    ∧ (LinearBuckets.get_bucket ⟨5, 105, 10⟩ 200
        = (⟨5, 105, 10⟩ : LinearBuckets).buckets - 1) :=
  ⟨(C3_boundary_clamps 5 105 10 ⟨5, 105, 10⟩ (by decide) 3).1 (by decide),
    (C3_boundary_clamps 5 105 10 ⟨5, 105, 10⟩ (by decide) 200).2 (by decide)⟩

/-- C4: on interior values `get_bucket` is exactly the single-precision
computation `floor((value - min) / (max - min) * buckets)` with
truncation toward zero on the conversion to an integer index, and the
spec examples for `LinearBuckets::new(0, 100, 10)` hold:
`get_bucket 0 = 0`, `get_bucket 99 = 9`, `get_bucket 100 = 9`,
`get_bucket 50 = 5`. -/
theorem C4_interior_formula :
    (∀ (lb : LinearBuckets) (v : ℕ), lb.min < v → v < lb.max →
      lb.get_bucket v = f32ToUsize (fmul (fdiv
        (fsub (natToF32 v) (natToF32 lb.min))
        (fsub (natToF32 lb.max) (natToF32 lb.min))) (natToF32 lb.buckets)))
    ∧ LinearBuckets.get_bucket ⟨0, 100, 10⟩ 0 = 0
    ∧ LinearBuckets.get_bucket ⟨0, 100, 10⟩ 99 = 9
    ∧ LinearBuckets.get_bucket ⟨0, 100, 10⟩ 100 = 9
    ∧ LinearBuckets.get_bucket ⟨0, 100, 10⟩ 50 = 5 := by
  refine ⟨?_, by decide, by decide, by decide, by decide⟩
  intro lb v hv1 hv2
  have hred : lb.get_bucket v
      = if v ≤ lb.min then 0 else if lb.max ≤ v then lb.buckets - 1
        else f32ToUsize (fmul (fdiv (fsub (natToF32 v) (natToF32 lb.min))
          (fsub (natToF32 lb.max) (natToF32 lb.min))) (natToF32 lb.buckets)) := rfl
  rw [hred, if_neg (by omega : ¬ v ≤ lb.min), if_neg (by omega : ¬ lb.max ≤ v)]

/-- C4 (witness). -/
theorem C4_witness :
    LinearBuckets.get_bucket ⟨0, 100, 10⟩ 50 = f32ToUsize (fmul (fdiv
      (fsub (natToF32 50) (natToF32 (⟨0, 100, 10⟩ : LinearBuckets).min))
      (fsub (natToF32 (⟨0, 100, 10⟩ : LinearBuckets).max)
        (natToF32 (⟨0, 100, 10⟩ : LinearBuckets).min)))
      (natToF32 (⟨0, 100, 10⟩ : LinearBuckets).buckets)) :=
  C4_interior_formula.1 ⟨0, 100, 10⟩ 50 (by decide) (by decide)

/-- C5: construction fails (panics) exactly when the configuration is
invalid — `min ≥ max`, or `buckets = 0`, or `buckets ≥ max - min` — and
succeeds otherwise; in particular the three spec examples panic. -/
theorem C5_construction_contract :
    (∀ mn mx b : ℕ, LinearBuckets.new mn mx b = none
        ↔ (mx ≤ mn ∨ b = 0 ∨ mx - mn ≤ b))
    ∧ LinearBuckets.new 10 10 1 = none
    ∧ LinearBuckets.new 0 10 0 = none
    ∧ LinearBuckets.new 0 10 10 = none := by
  refine ⟨?_, by decide, by decide, by decide⟩
  intro mn mx b
  unfold LinearBuckets.new
  split_ifs with h1 h2 h3 <;> simp <;> omega

/-- C9: the `Flatten` mappings are pure and total: u32 is the identity,
`()` maps to 0, `false` to 0 and `true` to 1. -/
theorem C9_flatten :
    (∀ n : ℕ, Flatten.as_u32 n = n)
    ∧ Flatten.as_u32 () = 0
    ∧ Flatten.as_u32 false = 0
    ∧ Flatten.as_u32 true = 1 :=
  ⟨fun _ => rfl, rfl, rfl, rfl⟩

/-- C10: for every constructed `LinearBuckets` the constructor assertion
`buckets > 0` holds, so the `buckets - 1` in the overflow branch of
`get_bucket` cannot underflow (`buckets - 1 + 1 = buckets`). -/
theorem C10_no_underflow (mn mx b : ℕ) (lb : LinearBuckets)
    (h : LinearBuckets.new mn mx b = some lb) :
    0 < lb.buckets ∧ lb.buckets - 1 + 1 = lb.buckets := by
  obtain ⟨rfl, h1, h2, h3⟩ := new_inv h
  refine ⟨h2, ?_⟩
  show b - 1 + 1 = b
  omega

/-- C10 (witness). -/
theorem C10_witness :
    0 < (⟨0, 100, 10⟩ : LinearBuckets).buckets
    ∧ (⟨0, 100, 10⟩ : LinearBuckets).buckets - 1 + 1
      = (⟨0, 100, 10⟩ : LinearBuckets).buckets :=
  C10_no_underflow 0 100 10 ⟨0, 100, 10⟩ (by decide)

/-- C7: `vec_resize` is a no-op when the buffer is already long enough;
otherwise (with the clone budget allowing the `delta - 1` clones) it
appends exactly `min_len - len` copies of the fill value, preserving the
original elements in order, and a second call with the same `min_len`
changes nothing. -/
theorem C7_resize (α : Type) (l : List α) (min_len : ℕ) (v : α) (b : ℕ) :
    (min_len ≤ l.length →
      vec_resize (RawVec.ofList l) min_len v b = Except.ok (RawVec.ofList l))
    ∧ (min_len - l.length - 1 ≤ b →
      vec_resize (RawVec.ofList l) min_len v b
        = Except.ok (RawVec.ofList (l ++ List.replicate (min_len - l.length) v)))
    ∧ vec_resize (RawVec.ofList (l ++ List.replicate (min_len - l.length) v))
        min_len v b
      = Except.ok (RawVec.ofList (l ++ List.replicate (min_len - l.length) v)) := by
  refine ⟨fun h => vec_resize_noop l min_len v b h, fun hb => ?_, ?_⟩
  · by_cases hlen : l.length < min_len
    · exact vec_resize_grow l min_len v b hlen hb
    · rw [show min_len - l.length = 0 by omega, show List.replicate 0 v = [] from rfl,
        List.append_nil]
      exact vec_resize_noop l min_len v b (by omega)
  · apply vec_resize_noop
    rw [List.length_append, List.length_replicate]
    omega

/-- C7 (witness). -/
theorem C7_witness :
    vec_resize (RawVec.ofList [1, 2, 3]) 6 (9 : ℕ) 2
      = Except.ok (RawVec.ofList ([1, 2, 3]
          ++ List.replicate (6 - [1, 2, 3].length) 9)) :=
  (C7_resize ℕ [1, 2, 3] 6 9 2).2.1 (by decide)

/-- C8: `vec_with_size size v` (with the clone budget allowing `size`
clones) returns a buffer of exactly `size` slots, each a clone of the
fill value; in particular `with_size(5, 7)` is five sevens. -/
theorem C8_with_size :
    (∀ (α : Type) (size : ℕ) (v : α) (b : ℕ), size ≤ b →
      vec_with_size size v b = Except.ok (RawVec.ofList (List.replicate size v)))
    ∧ vec_with_size 5 (7 : ℕ) 5
        = Except.ok (RawVec.ofList (List.replicate 5 7)) := by
  refine ⟨fun α size v b h => vec_with_size_ok size v b h, ?_⟩
  exact vec_with_size_ok 5 7 5 (by omega)

/-- C8 (witness). -/
theorem C8_witness :
    vec_with_size 5 (7 : ℕ) 5 = Except.ok (RawVec.ofList (List.replicate 5 7)) :=
  C8_with_size.1 ℕ 5 7 5 (by decide)

/-- C2 (divergence): `vec_with_size` sets the length to `size` before any
slot is initialized, so a clone failure after 2 successful clones leaves
a buffer that reports length 5 with three uninitialized reachable slots —
the claimed invariant (length = number of initialized slots, no
uninitialized slot reachable) is violated.  `vec_resize`, by contrast,
increments the length one slot at a time: a failure after 1 clone leaves
length 4 = 3 + 1 with every slot below the length initialized. -/
theorem C2_divergence :
    vec_with_size 5 (7 : ℕ) 2
      = Except.error ⟨[some 7, some 7, none, none, none], 5⟩
    ∧ ¬ RawVec.initUpToLen (⟨[some 7, some 7, none, none, none], 5⟩ : RawVec ℕ)
    ∧ (⟨[some 7, some 7, none, none, none], 5⟩ : RawVec ℕ).len ≠ 0 + 2
    ∧ vec_resize (RawVec.ofList [1, 2, 3]) 6 (9 : ℕ) 1
      = Except.error ⟨[some 1, some 2, some 3, some 9, none, none], 4⟩
    ∧ RawVec.initUpToLen
        (⟨[some 1, some 2, some 3, some 9, none, none], 4⟩ : RawVec ℕ)
    ∧ (⟨[some 1, some 2, some 3, some 9, none, none], 4⟩ : RawVec ℕ).len = 3 + 1 := by
  refine ⟨rfl, ?_, by decide, rfl, ?_, rfl⟩
  · intro h
    obtain ⟨a, ha⟩ := h 2 (by norm_num)
    simp at ha
  · intro i hi
    interval_cases i
    · exact ⟨1, rfl⟩
    · exact ⟨2, rfl⟩
    · exact ⟨3, rfl⟩
    · exact ⟨9, rfl⟩

/-- C6 (counterexample): with `LinearBuckets::new(0, 2^25, 10)` and
`min ≤ 33554431 ≤ 33554432 ≤ max`, the bucket index drops from 10 to 9:
`get_bucket` is not monotone on `[min, max]`. -/
theorem C6_counterexample :
    LinearBuckets.new 0 33554432 10 = some ⟨0, 33554432, 10⟩
    ∧ (⟨0, 33554432, 10⟩ : LinearBuckets).min ≤ 33554431
    ∧ (33554431 : ℕ) ≤ 33554432
    ∧ (33554432 : ℕ) ≤ (⟨0, 33554432, 10⟩ : LinearBuckets).max
    ∧ ¬ (LinearBuckets.get_bucket ⟨0, 33554432, 10⟩ 33554431
          ≤ LinearBuckets.get_bucket ⟨0, 33554432, 10⟩ 33554432) := by
  refine ⟨by decide, by decide, by decide, by decide, by decide⟩

/-- C6 (amended): for every `LinearBuckets` constructed with `min < max`,
`0 < buckets < max - min`, and additionally `max ≤ 2^24`, `get_bucket`
is monotone on `[min, max]`. -/
theorem C6_amended (mn mx b : ℕ) (lb : LinearBuckets)
    (h : LinearBuckets.new mn mx b = some lb) (h24 : lb.max ≤ 2 ^ 24)
    (x y : ℕ) (hx : lb.min ≤ x) (hxy : x ≤ y) (hy : y ≤ lb.max) :
    lb.get_bucket x ≤ lb.get_bucket y := by
  obtain ⟨rfl, h1, h2, h3⟩ := new_inv h
  exact get_bucket_mono h1 h2 h3 h24 hxy hy

/-- C6 (witness). -/
theorem C6_witness :
    LinearBuckets.get_bucket ⟨0, 100, 10⟩ 30
      ≤ LinearBuckets.get_bucket ⟨0, 100, 10⟩ 70 :=
  C6_amended 0 100 10 ⟨0, 100, 10⟩ (by decide) (by decide) 30 70
    (by decide) (by decide) (by decide)
